import Mathlib

/-!
Shallow embedding of the commerce.txt product pipeline: the J.Crew PLP parser
(`jcrew_parser.py`), the Cozy Knits bundle parser (`effulgent_parser.py`) and
the Markdown compressor (`compression.py`), together with theorems settling the
specification claims about them.

Python strings are modelled as `List Char`; decoded JSON payloads as the
inductive `JVal`; Python floats as rationals.
-/

/-- Python strings are modelled as lists of characters. -/
abbrev PyStr := List Char

/-- Convert a Lean string literal into the `PyStr` model. -/
def pstr (s : String) : PyStr := s.toList

/-- The single-quote character. -/
def squote : Char := Char.ofNat 39

/-- Python whitespace: the characters stripped by `str.strip` and matched by
    the regex class `\s` (space, tab, newline, carriage return, vertical tab,
    form feed). -/
def isPySpace (c : Char) : Bool :=
  c = ' ' || c = '\t' || c = '\n' || c = '\r' || c = '\x0b' || c = '\x0c'

/-- Python `str.strip()`. -/
def pyStrip (s : PyStr) : PyStr :=
  List.rdropWhile isPySpace (s.dropWhile isPySpace)

/-- Python `str.rstrip()`. -/
def pyRStrip (s : PyStr) : PyStr :=
  List.rdropWhile isPySpace s

/-- Python `str.lower()` (ASCII case, which is all the payloads use). -/
def pyLower (s : PyStr) : PyStr := s.map Char.toLower

/-- JSON-like Python values decoded from the vendor payloads.  Numbers are
    modelled as integers: every numeric field the claims exercise is integral,
    and no claim depends on fractional payload numbers. -/
inductive JVal where
  | null : JVal
  | bool (b : Bool) : JVal
  | num (n : Int) : JVal
  | str (s : PyStr) : JVal
  | arr (elems : List JVal) : JVal
  | obj (fields : List (PyStr × JVal)) : JVal

/-- Python `value is None` for decoded values. -/
def isNull : JVal → Bool
  | .null => true
  | _ => false

/-- Python truthiness of a decoded value: `None`, `False`, `0`, `""`, `[]` and
    an empty dict are falsy, everything else is truthy. -/
def truthy : JVal → Bool
  | .null => false
  | .bool b => b
  | .num n => n != 0
  | .str s => !s.isEmpty
  | .arr l => !l.isEmpty
  | .obj l => !l.isEmpty

/-- `d.get(k, default)`: look a key up in a JSON object, falling back to the
    default when the key is missing.  The Python code only calls `.get` on
    dicts; a non-object receiver yields the default here. -/
def pyGetD : JVal → PyStr → JVal → JVal
  | .obj fields, k, dflt => (fields.lookup k).getD dflt
  | _, _, dflt => dflt

/-- `d.get(k)`: a missing key and an explicit JSON null both come back as
    Python `None`, modelled by `JVal.null`. -/
def pyGet (v : JVal) (k : PyStr) : JVal := pyGetD v k .null

/-- Python `a or b`: the first operand when truthy, otherwise the second. -/
def pyOr (a b : JVal) : JVal := if truthy a then a else b

/-- Project a value to the string the Python code requires it to be at that
    point (it immediately calls `str` methods on it); a non-string yields `[]`.
    Payload fields the claims exercise are strings wherever this is used. -/
def asStr : JVal → PyStr
  | .str s => s
  | _ => []

/-- Decimal digit string of a natural number, as Python renders it. -/
def natRepr (n : Nat) : PyStr :=
  if n < 10 then [Char.ofNat (48 + n)]
  else natRepr (n / 10) ++ [Char.ofNat (48 + n % 10)]
termination_by n
decreasing_by exact Nat.div_lt_self (by omega) (by omega)

/-- Python `str(int)`. -/
def intRepr (n : Int) : PyStr :=
  if n < 0 then '-' :: natRepr n.natAbs else natRepr n.natAbs

/-- Python `str(value)` for values the mappers store in metadata.  Atoms render
    as in Python; containers keep a fixed non-empty marker rendering, which no
    claim depends on (container values only ever matter here through the
    truthiness of the rendered string, and the marker is non-empty). -/
def pyToStr : JVal → PyStr
  | .null => pstr ("None")
  | .bool true => pstr ("True")
  | .bool false => pstr ("False")
  | .num n => intRepr n
  | .str s => s
  | .arr _ => pstr ("[...]")
  | .obj _ => pstr ("\x7b...\x7d")

/-! ## Markdown compressor (`app/services/compression.py`) -/

/-- `MarkdownCompressor`: the construction-time configuration is the per-item
    description budget `max_description_chars` (default 280). -/
structure MarkdownCompressor where
  max_description_chars : Int
deriving DecidableEq, Repr

/-- Python slice `xs[:k]` with an integer bound: a negative bound counts
    from the end of the sequence. -/
def pySliceTo {α : Type} (l : List α) (k : Int) : List α :=
  if 0 ≤ k then l.take k.toNat else l.take (l.length - (-k).toNat)

/-- `MarkdownCompressor._trim`: strip the description, keep it whole when it
    fits the budget, otherwise cut to `max_description_chars - 3` characters,
    right-strip and append three periods. -/
def MarkdownCompressor.trim (c : MarkdownCompressor) (text : PyStr) : PyStr :=
  let t := pyStrip text
  if (t.length : Int) ≤ c.max_description_chars then t
  else pyRStrip (pySliceTo t (c.max_description_chars - 3)) ++ pstr ("...")

/-- Normalized product record (the data of the pydantic `Product` schema in
    `app/schemas.py`). -/
structure Product where
  name : PyStr
  description : PyStr
  price : Rat
  currency : PyStr
  url : PyStr
  tags : List PyStr
  availability : Option PyStr
  metadata : List (PyStr × PyStr)
deriving DecidableEq, Repr

/-- Group decimal digits in threes from the right with comma separators. -/
def group3 (ds : PyStr) : PyStr :=
  if ds.length ≤ 3 then ds
  else group3 (ds.take (ds.length - 3)) ++ ',' :: ds.drop (ds.length - 3)
termination_by ds.length
decreasing_by simp [List.length_take]; omega

/-- Two-digit zero-padded rendering of a natural number below 100. -/
def pad2 (n : Nat) : PyStr :=
  if n < 10 then '0' :: natRepr n else natRepr n

/-- Python `f"{x:,.2f}"`: fixed two decimal places with thousands separators.
    Exact decimal ties are modelled as rounding half-up; no claim depends on
    tie behaviour or on negative prices. -/
def formatFloat2 (q : Rat) : PyStr :=
  let cents : Int := Rat.floor (q * 100 + 1 / 2)
  let mag : Nat := cents.natAbs
  let sign : PyStr := if cents < 0 then ['-'] else []
  sign ++ group3 (natRepr (mag / 100)) ++ '.' :: pad2 (mag % 100)

/-- The lines the `build_listing` loop appends for one product: numbered
    heading line, description bullet, tags bullet, the metadata bullet when
    metadata is non-empty, and the blank separator line. -/
def entryLines (c : MarkdownCompressor) (idx : Nat) (p : Product) : List PyStr :=
  let desc := c.trim p.description
  let tagsTxt := if p.tags.isEmpty then pstr ("no tags")
    else List.intercalate (pstr (", ")) p.tags
  let avail := match p.availability with
    | some a => if a.isEmpty then [] else pstr (" · ") ++ a
    | none => []
  let price := if p.currency.isEmpty then formatFloat2 p.price
    else p.currency ++ ' ' :: formatFloat2 p.price
  let line1 := natRepr idx ++ pstr (". [") ++ p.name ++ pstr ("](") ++
    p.url ++ pstr (") — ") ++ price ++ avail
  let metaPart := if p.metadata.isEmpty then ([] : List PyStr)
    else [pstr ("   - meta: ") ++
      List.intercalate (pstr (", "))
        (p.metadata.map (fun kv => kv.1 ++ pstr (": ") ++ kv.2))]
  [line1, pstr ("   - ") ++ desc, pstr ("   - tags: ") ++ tagsTxt] ++ metaPart ++ [[]]

/-- The `for idx, product in enumerate(normalized, start=1)` rendering loop. -/
def renderProducts (c : MarkdownCompressor) : Nat → List Product → List PyStr
  | _, [] => []
  | idx, p :: ps => entryLines c idx p ++ renderProducts c (idx + 1) ps

/-- Python `"\n".join(lines)`. -/
def joinNL : List PyStr → PyStr
  | [] => []
  | [l] => l
  | l :: ls => l ++ '\n' :: joinNL ls

/-- The fixed sentinel returned for an empty product sequence. -/
def sentinel : PyStr := pstr ("_No products available to summarize._")

/-- `title or "commerce.txt spotlight"`: the heading text (a `None` or empty
    title falls back to the default). -/
def headingOf (title : Option PyStr) : PyStr :=
  match title with
  | some t => if t.isEmpty then pstr ("commerce.txt spotlight") else t
  | none => pstr ("commerce.txt spotlight")

/-- `MarkdownCompressor.build_listing`: sentinel on an empty sequence, else a
    level-2 heading, a blank line, the numbered entries, every line
    right-stripped, joined by newlines and stripped as a whole. -/
def MarkdownCompressor.build_listing (c : MarkdownCompressor)
    (products : List Product) (title : Option PyStr) : PyStr :=
  if products.isEmpty then sentinel
  else
    let lines := (pstr ("## ") ++ pyStrip (headingOf title)) :: [] ::
      renderProducts c 1 products
    pyStrip (joinNL (lines.map pyRStrip))

/-! ## Theorems -/

/-- C9: compressing an empty product sequence returns the fixed italic
    "no products" sentinel exactly, for every title argument and every
    configuration — never the empty string and never a heading line. -/
theorem C9_empty_listing_sentinel (c : MarkdownCompressor) (title : Option PyStr) :
    c.build_listing [] title = sentinel ∧ sentinel ≠ [] ∧
      ¬ (pstr ("##")).IsPrefix sentinel := by
  refine ⟨rfl, by decide, by decide⟩

/-- C4 counterexample: with a budget of 5, the six-character description
    "a bcde" (one character over budget) renders as "a..." of length 4, not of
    total length exactly 5; and with a budget of 4, a description of exactly 4
    characters ending in spaces is not left untouched (it is stripped). -/
theorem C4_trim_counterexample :
    (pstr ("a bcde")).length = 6 ∧
    ¬ (((MarkdownCompressor.mk 5).trim (pstr ("a bcde"))).length = 5) ∧
    (pstr ("ab  ")).length = 4 ∧
    ¬ ((MarkdownCompressor.mk 4).trim (pstr ("ab  ")) = pstr ("ab  ")) := by
  decide

/-- C4 (amended): the compressor strips the description first; a stripped
    description of length at most `max_description_chars` (in particular one of
    exactly that length with no surrounding whitespace) is returned unchanged,
    and a longer one is cut to `max_description_chars - 3` characters, trimmed
    of trailing whitespace, plus three periods — so its total length is at most
    (not always exactly) `max_description_chars`, and it ends in `...`. -/
theorem C4_trim_boundary (c : MarkdownCompressor) (text : PyStr) :
    (pyStrip text = text → (text.length : Int) ≤ c.max_description_chars →
      c.trim text = text) ∧
    (3 ≤ c.max_description_chars →
      c.max_description_chars < ((pyStrip text).length : Int) →
      c.trim text =
        pyRStrip ((pyStrip text).take (c.max_description_chars - 3).toNat) ++
          pstr ("...") ∧
      ((c.trim text).length : Int) ≤ c.max_description_chars ∧
      pstr ("...") <:+ c.trim text) := by
  constructor
  · intro hstrip hlen
    simp only [MarkdownCompressor.trim, hstrip, if_pos hlen]
  · intro h3 hlen
    have hnot : ¬ (((pyStrip text).length : Int) ≤ c.max_description_chars) := by omega
    have hslice : pySliceTo (pyStrip text) (c.max_description_chars - 3) =
        (pyStrip text).take (c.max_description_chars - 3).toNat := by
      unfold pySliceTo
      rw [if_pos (by omega)]
    have heq : c.trim text =
        pyRStrip ((pyStrip text).take (c.max_description_chars - 3).toNat) ++
          pstr ("...") := by
      simp only [MarkdownCompressor.trim, if_neg hnot, hslice]
    refine ⟨heq, ?_, ?_⟩
    · rw [heq]
      have h1 : (pyRStrip ((pyStrip text).take (c.max_description_chars - 3).toNat)).length ≤
          ((pyStrip text).take (c.max_description_chars - 3).toNat).length :=
        (List.rdropWhile_prefix _ _).length_le
      have h2 : ((pyStrip text).take (c.max_description_chars - 3).toNat).length ≤
          (c.max_description_chars - 3).toNat := by
        simp [List.length_take]
      have h4 : (pstr ("...")).length = 3 := by decide
      rw [List.length_append, h4]
      omega
    · rw [heq]
      exact List.suffix_append _ _

/-! ## J.Crew PLP parser (`app/services/jcrew_parser.py`) -/

/-- The list a decoded value must be when the Python code iterates over it;
    a non-list yields `[]` (the payloads in scope are lists there). -/
def asArr : JVal → List JVal
  | .arr l => l
  | _ => []

/-- All characters are decimal digits. -/
def allDigits (ds : PyStr) : Bool := ds.all (fun c => c.isDigit)

/-- Numeric value of a digit string. -/
def digitsVal (ds : PyStr) : Nat :=
  ds.foldl (fun a c => a * 10 + (c.toNat - 48)) 0

/-- Parse an unsigned decimal numeral (`"12"`, `"12.5"`, `".5"`, `"5."`), the
    shapes Python `float()` accepts among the payload strings in scope. -/
def parseUnsigned (s : PyStr) : Option Rat :=
  match List.splitOn '.' s with
  | [ip] => if ip ≠ [] ∧ allDigits ip then some (digitsVal ip) else none
  | [ip, fp] =>
    if (ip ≠ [] ∨ fp ≠ []) ∧ allDigits ip ∧ allDigits fp then
      some ((digitsVal ip : Rat) + (digitsVal fp : Rat) / (10 : Rat) ^ fp.length)
    else none
  | _ => none

/-- Python `float(value)`: numbers and booleans convert, decimal strings are
    parsed, everything else raises (modelled by `none`). -/
def pyFloat : JVal → Option Rat
  | .num n => some n
  | .bool b => some (if b then 1 else 0)
  | .str s =>
    match s with
    | '-' :: rest => (parseUnsigned rest).map Neg.neg
    | '+' :: rest => parseUnsigned rest
    | _ => parseUnsigned s
  | _ => none

/-- `JCrewPlpParser._resolve_price`: a truthy `searchPrice` wins, otherwise a
    non-`None` `listPrice.amount`, otherwise 0.0. -/
def jcrew_resolve_price (data : JVal) : Option Rat :=
  let search_price := pyGet data (pstr ("searchPrice"))
  if truthy search_price then pyFloat search_price
  else
    let list_price := pyOr (pyGet data (pstr ("listPrice"))) (.obj [])
    let amount := pyGet list_price (pstr ("amount"))
    if isNull amount then some 0 else pyFloat amount

/-- `JCrewPlpParser.BASE_URL`. -/
def jcrewBaseUrl : PyStr := pstr ("https://www.jcrew.com")

/-- Python `str.startswith`. -/
def startsWith (pre s : PyStr) : Bool := pre.isPrefixOf s

/-- `JCrewPlpParser._resolve_url`: keep an absolute path, else join it to the
    fixed base URL. -/
def jcrew_resolve_url (path : PyStr) : PyStr :=
  let p := pyStrip path
  if startsWith (pstr ("http://")) p || startsWith (pstr ("https://")) p then p
  else jcrewBaseUrl ++ p

/-- `JCrewPlpParser._CATEGORY_STOP_WORDS`. -/
def jcrewStopWords : List PyStr :=
  [pstr ("mens"), pstr ("women"), pstr ("categories"), pstr ("clothing")]

/-- The tag list `JCrewPlpParser._build_tags` accumulates before its
    de-duplication pass: category path segments (stripped, lowercased, hyphens
    to spaces, stop words dropped), then colour names, then the badge label. -/
def jcrew_raw_tags (data : JVal) : List PyStr :=
  let category := asStr (pyOr (pyGet data (pstr ("primaryCategoryId"))) (.str []))
  let catTags := (List.splitOn '|' category).filterMap (fun part =>
    let normalized := pyStrip part
    if normalized ≠ [] ∧ ¬ pyLower normalized ∈ jcrewStopWords then
      some ((pyLower normalized).map (fun ch => if ch = '-' then ' ' else ch))
    else none)
  let colorTags := (asArr (pyOr (pyGet data (pstr ("colors"))) (.arr []))).filterMap
    (fun color =>
      let color_name := pyStrip (asStr (pyOr (pyGet color (pstr ("colorName"))) (.str [])))
      if color_name ≠ [] then some (pyLower color_name) else none)
  let badge_label := pyGet (pyOr (pyGet data (pstr ("badge"))) (.obj [])) (pstr ("label"))
  let badgeTags := if truthy badge_label then [pyLower (asStr badge_label)] else []
  catTags ++ colorTags ++ badgeTags

/-- The `seen`-set de-duplication loop at the end of
    `JCrewPlpParser._build_tags`, keeping each tag's first occurrence. -/
def dedupSeen (seen : List PyStr) : List PyStr → List PyStr
  | [] => []
  | t :: ts => if t ∈ seen then dedupSeen seen ts else t :: dedupSeen (t :: seen) ts

/-- `JCrewPlpParser._build_tags`. -/
def jcrew_build_tags (data : JVal) : List PyStr :=
  dedupSeen [] (jcrew_raw_tags data)

/-- The ordered key-to-source-value map of `JCrewPlpParser._build_metadata`. -/
def jcrewMappings (data : JVal) : List (PyStr × JVal) :=
  [(pstr ("product_code"), pyGet data (pstr ("productCode"))),
   (pstr ("primary_category"), pyGet data (pstr ("primaryCategoryId"))),
   (pstr ("badge"), pyGet (pyOr (pyGet data (pstr ("badge"))) (.obj [])) (pstr ("label"))),
   (pstr ("list_price"), pyGet (pyOr (pyGet data (pstr ("listPrice"))) (.obj [])) (pstr ("formatted"))),
   (pstr ("search_price"),
     if truthy (pyGet data (pstr ("searchPrice"))) then
       .str (pyToStr (pyGet data (pstr ("searchPrice")))) else .null),
   (pstr ("url_path"), pyGet data (pstr ("url"))),
   (pstr ("rating"),
     if truthy (pyGet data (pstr ("bvAverageRating"))) then
       .str (pyToStr (pyGet data (pstr ("bvAverageRating")))) else .null),
   (pstr ("reviews"),
     if truthy (pyGet data (pstr ("bvReviewCount"))) then
       .str (pyToStr (pyGet data (pstr ("bvReviewCount")))) else .null)]

/-- The filter-and-stringify loop shared by both vendors' `_build_metadata`:
    walk the mappings in order and keep `key: str(value)` for the values that
    pass the vendor's keep test (`if value:` for J.Crew, `if value or
    value == 0:` for Effulgent). -/
def buildFiltered : List (PyStr × JVal) → (JVal → Bool) → List (PyStr × PyStr)
  | [], _ => []
  | (k, v) :: rest, keep =>
    if keep v then (k, pyToStr v) :: buildFiltered rest keep
    else buildFiltered rest keep

/-- `JCrewPlpParser._build_metadata`: keep a key only when its value is truthy. -/
def jcrew_build_metadata (data : JVal) : List (PyStr × PyStr) :=
  buildFiltered (jcrewMappings data) truthy

/-- `JCrewPlpParser._extract_product_entries` error cases. -/
inductive JCrewErr where
  | initialStateMissing
  | productArrayMissing
  | noEntries
deriving DecidableEq, Repr

/-- `JCrewPlpParser._extract_product_entries`: fail when `initialState` or
    `productArray` is absent (or falsy), collect the per-block `products`
    lists, and fail when no entries were discovered. -/
def jcrew_extract_product_entries (payload : JVal) :
    Except JCrewErr (List JVal) :=
  let initial_state := pyGet (pyGetD payload (pstr ("props")) (.obj []))
    (pstr ("initialState"))
  if ¬ truthy initial_state then .error .initialStateMissing
  else
    let array_state := pyGetD initial_state (pstr ("array")) (.obj [])
    let product_array := pyGet (pyGetD array_state (pstr ("data")) (.obj []))
      (pstr ("productArray"))
    if ¬ truthy product_array then .error .productArrayMissing
    else
      let product_lists := asArr (pyOr (pyGet product_array (pstr ("productList"))) (.arr []))
      let entries := product_lists.flatMap
        (fun block => asArr (pyOr (pyGet block (pstr ("products"))) (.arr [])))
      if entries.isEmpty then .error .noEntries else .ok entries

/-- One `productList` block holding a `products` array. -/
def wrapBlock (b : List JVal) : JVal := .obj [(pstr ("products"), .arr b)]

/-- A well-shaped `__NEXT_DATA__` payload whose `productList` holds the given
    blocks of product records. -/
def productsPayload (blocks : List (List JVal)) : JVal :=
  .obj [(pstr ("props"), .obj [(pstr ("initialState"), .obj [(pstr ("array"),
    .obj [(pstr ("data"), .obj [(pstr ("productArray"), .obj [(pstr ("productList"),
    .arr (blocks.map wrapBlock))])])])])])]

/-- A payload whose containers up to `data` are present but whose
    `productArray` key is absent. -/
def payloadNoProductArray : JVal :=
  .obj [(pstr ("props"), .obj [(pstr ("initialState"), .obj [(pstr ("array"),
    .obj [(pstr ("data"), .obj [])])])])]

/-- C10: a present-but-falsy `searchPrice` (such as 0 or an empty string) is
    skipped; the price then resolves from `listPrice.amount` whenever that is
    not `None` (including 0), and defaults to 0.0 only when it is `None`;
    a truthy `searchPrice` alone determines the price. -/
theorem C10_resolve_price_skips_falsy (data : JVal) :
    (truthy (pyGet data (pstr ("searchPrice"))) = true →
      jcrew_resolve_price data = pyFloat (pyGet data (pstr ("searchPrice")))) ∧
    (truthy (pyGet data (pstr ("searchPrice"))) = false →
      isNull (pyGet (pyOr (pyGet data (pstr ("listPrice"))) (.obj []))
        (pstr ("amount"))) = false →
      jcrew_resolve_price data =
        pyFloat (pyGet (pyOr (pyGet data (pstr ("listPrice"))) (.obj []))
          (pstr ("amount")))) ∧
    (truthy (pyGet data (pstr ("searchPrice"))) = false →
      isNull (pyGet (pyOr (pyGet data (pstr ("listPrice"))) (.obj []))
        (pstr ("amount"))) = true →
      jcrew_resolve_price data = some 0) := by
  refine ⟨fun h1 => ?_, fun h1 h2 => ?_, fun h1 h2 => ?_⟩ <;>
    simp [jcrew_resolve_price, h1]
  · exact fun hc => absurd hc (by simp [h2])
  · exact fun hc => absurd h2 (by simp [hc])

/-- C10 witness: `searchPrice` present as the empty string is skipped and the
    price comes from `listPrice.amount`. -/
theorem C10_resolve_price_witness :
    jcrew_resolve_price (JVal.obj [(pstr ("searchPrice"), .str []),
      (pstr ("listPrice"), .obj [(pstr ("amount"), .num 7)])]) = some 7 := by
  have h := (C10_resolve_price_skips_falsy (JVal.obj [(pstr ("searchPrice"), .str []),
    (pstr ("listPrice"), .obj [(pstr ("amount"), .num 7)])])).2.1
    (by decide) (by decide)
  rw [h]; decide

/-- C5 counterexample: a payload with every required container present but
    holding zero product records raises (`"No product entries discovered"`)
    instead of yielding an empty product list. -/
theorem C5_zero_records_counterexample :
    jcrew_extract_product_entries (productsPayload []) = .error .noEntries ∧
    ∀ l : List JVal, jcrew_extract_product_entries (productsPayload []) ≠ .ok l := by
  refine ⟨rfl, fun l h => ?_⟩
  rw [show jcrew_extract_product_entries (productsPayload []) =
    Except.error JCrewErr.noEntries from rfl] at h
  exact Except.noConfusion h

/-- C5 (amended): extraction fails when `initialState` or `productArray` is
    absent (or falsy) from the payload, and it also fails on a well-shaped
    payload whose blocks hold zero product records; a non-empty record set is
    required for success, so zero records is an error rather than a valid
    empty result. -/
theorem C5_extract_entries (blocks : List (List JVal)) :
    jcrew_extract_product_entries (productsPayload blocks) =
      (if blocks.flatten.isEmpty then .error .noEntries
        else .ok blocks.flatten) ∧
    jcrew_extract_product_entries (.obj []) = .error .initialStateMissing ∧
    jcrew_extract_product_entries payloadNoProductArray =
      .error .productArrayMissing := by
  refine ⟨?_, rfl, rfl⟩
  have key : ∀ bs : List (List JVal),
      (bs.map wrapBlock).flatMap
        (fun block => asArr (pyOr (pyGet block (pstr ("products"))) (.arr []))) =
        bs.flatten := by
    intro bs
    induction bs with
    | nil => rfl
    | cons b bs ih =>
      simp only [List.map_cons, List.flatMap_cons, List.flatten_cons, ih]
      congr 1
      cases b <;> rfl
  cases blocks with
  | nil => rfl
  | cons b bs =>
    rw [show jcrew_extract_product_entries (productsPayload (b :: bs)) =
      (if (((b :: bs).map wrapBlock).flatMap
          (fun block => asArr (pyOr (pyGet block (pstr ("products"))) (.arr [])))).isEmpty
        then Except.error JCrewErr.noEntries
        else Except.ok (((b :: bs).map wrapBlock).flatMap
          (fun block => asArr (pyOr (pyGet block (pstr ("products"))) (.arr [])))))
      from rfl, key (b :: bs)]

/-! ## Effulgent (Cozy Knits) metadata (`EffulgentParser._build_metadata`) -/

/-- `", ".join(data.get("sizes") or [])` from `EffulgentParser._build_metadata`. -/
def sizesJoined (data : JVal) : PyStr :=
  List.intercalate (pstr (", "))
    ((asArr (pyOr (pyGet data (pstr ("sizes"))) (.arr []))).map asStr)

/-- Python `value == 0` on decoded values: the number 0 and `False` compare
    equal to 0, nothing else here does. -/
def pyEqZero : JVal → Bool
  | .num n => n == 0
  | .bool b => !b
  | _ => false

/-- The ordered key-to-source-value map of `EffulgentParser._build_metadata`. -/
def effMappings (data : JVal) : List (PyStr × JVal) :=
  [(pstr ("id"), pyGet data (pstr ("id"))),
   (pstr ("image"), pyGet data (pstr ("image"))),
   (pstr ("rating"), pyGet data (pstr ("rating"))),
   (pstr ("reviews"), pyGet data (pstr ("reviews"))),
   (pstr ("sizes"), .str (sizesJoined data))]

/-- `EffulgentParser._build_metadata`: keep a key when its value is truthy or
    compares equal to 0. -/
def effulgent_build_metadata (data : JVal) : List (PyStr × PyStr) :=
  buildFiltered (effMappings data) (fun v => truthy v || pyEqZero v)

lemma natRepr_ne_nil (n : Nat) : natRepr n ≠ [] := by
  rw [natRepr]
  split
  · simp
  · simp

lemma intRepr_ne_nil (n : Int) : intRepr n ≠ [] := by
  rw [intRepr]
  split
  · simp
  · exact natRepr_ne_nil _

lemma pyToStr_ne_nil (v : JVal) (h : truthy v = true) : pyToStr v ≠ [] := by
  cases v with
  | null => simp [truthy] at h
  | bool b => cases b <;> simp [pyToStr, pstr]
  | num n => exact intRepr_ne_nil n
  | str s =>
    intro hc
    simp only [pyToStr] at hc
    subst hc
    simp [truthy] at h
  | arr l => simp [pyToStr, pstr]
  | obj l => simp [pyToStr, pstr]

lemma keys_buildFiltered_subset (m : List (PyStr × JVal)) (keep : JVal → Bool)
    (k : PyStr) (h : k ∈ (buildFiltered m keep).map Prod.fst) :
    k ∈ m.map Prod.fst := by
  induction m with
  | nil => simp [buildFiltered] at h
  | cons kv rest ih =>
    obtain ⟨k1, v1⟩ := kv
    by_cases h1 : keep v1 = true
    · simp only [buildFiltered, if_pos h1, List.map_cons, List.mem_cons] at h ⊢
      rcases h with h | h
      · exact Or.inl h
      · exact Or.inr (ih h)
    · simp only [buildFiltered, if_neg h1, List.map_cons, List.mem_cons] at h ⊢
      exact Or.inr (ih h)

lemma mem_keys_buildFiltered (m : List (PyStr × JVal)) (keep : JVal → Bool)
    (k : PyStr) (v : JVal) (hm : (k, v) ∈ m)
    (hnd : (m.map Prod.fst).Nodup) :
    (k ∈ (buildFiltered m keep).map Prod.fst ↔ keep v = true) := by
  induction m with
  | nil => cases hm
  | cons kv rest ih =>
    obtain ⟨k1, v1⟩ := kv
    simp only [List.map_cons, List.nodup_cons] at hnd
    rcases List.mem_cons.mp hm with heq | htail
    · injection heq with hk hv
      subst hk
      subst hv
      by_cases hkeep : keep v = true
      · simp [buildFiltered, hkeep]
      · have hnot : ¬ k ∈ (buildFiltered rest keep).map Prod.fst :=
          fun hc => hnd.1 (keys_buildFiltered_subset _ _ _ hc)
        simp [buildFiltered, hkeep, hnot]
    · have hkrest : k ∈ rest.map Prod.fst :=
        List.mem_map.mpr ⟨(k, v), htail, rfl⟩
      have hk_ne : ¬ k = k1 := fun hc => hnd.1 (hc ▸ hkrest)
      by_cases hkeep : keep v1 = true
      · simp [buildFiltered, hkeep, ih htail hnd.2, hk_ne]
      · simp [buildFiltered, hkeep, ih htail hnd.2]

lemma pair_mem_buildFiltered (m : List (PyStr × JVal)) (keep : JVal → Bool)
    (k : PyStr) (v : JVal) (hm : (k, v) ∈ m) (hkeep : keep v = true) :
    (k, pyToStr v) ∈ buildFiltered m keep := by
  induction m with
  | nil => cases hm
  | cons kv rest ih =>
    rcases List.mem_cons.mp hm with heq | htail
    · subst heq
      simp [buildFiltered, hkeep]
    · obtain ⟨k1, v1⟩ := kv
      by_cases h1 : keep v1 = true <;> simp [buildFiltered, h1, ih htail]

/-- C4 witness: a 5-character description under a 10-character budget is kept
    verbatim; an 8-character one under a 4-character budget renders within the
    budget. -/
theorem C4_trim_boundary_witness :
    (MarkdownCompressor.mk 10).trim (pstr ("hello")) = pstr ("hello") ∧
    (((MarkdownCompressor.mk 4).trim (pstr ("abcdefgh"))).length : Int) ≤ 4 := by
  constructor
  · exact (C4_trim_boundary (MarkdownCompressor.mk 10) (pstr ("hello"))).1
      (by decide) (by decide)
  · exact ((C4_trim_boundary (MarkdownCompressor.mk 4) (pstr ("abcdefgh"))).2
      (by decide) (by decide)).2.1

/-- C6 counterexample: for a J.Crew record whose `bvReviewCount` is present
    with the falsy value 0, the metadata omits the `reviews` key, although the
    claim requires falsy-but-present values such as 0 to be included. -/
theorem C6_falsy_zero_counterexample :
    pyGet (JVal.obj [(pstr ("bvReviewCount"), .num 0)]) (pstr ("bvReviewCount")) =
      .num 0 ∧
    ¬ (pstr ("reviews")) ∈
      (jcrew_build_metadata (JVal.obj [(pstr ("bvReviewCount"), .num 0)])).map
        Prod.fst := by
  exact ⟨rfl, by decide⟩

/-- C6 (amended): each vendor's metadata includes a key exactly when its source
    value passes that vendor's keep test — Effulgent also admits present values
    comparing equal to 0, while J.Crew requires a truthy value (so a present 0
    or empty string is omitted there); Effulgent's list-valued `sizes` source
    is flattened to a comma-joined string. -/
theorem C6_metadata_inclusion (data : JVal) :
    (∀ k v, (k, v) ∈ jcrewMappings data →
      ((k ∈ (jcrew_build_metadata data).map Prod.fst) ↔ truthy v = true)) ∧
    (∀ k v, (k, v) ∈ effMappings data →
      ((k ∈ (effulgent_build_metadata data).map Prod.fst) ↔
        (truthy v || pyEqZero v) = true)) ∧
    ((pstr ("id")) ∈ (effulgent_build_metadata data).map Prod.fst ↔
      (truthy (pyGet data (pstr ("id"))) = true ∨
        pyEqZero (pyGet data (pstr ("id"))) = true)) ∧
    ((pstr ("reviews")) ∈ (jcrew_build_metadata data).map Prod.fst ↔
      truthy (pyGet data (pstr ("bvReviewCount"))) = true) ∧
    (truthy (.str (sizesJoined data)) = true →
      (pstr ("sizes"), sizesJoined data) ∈ effulgent_build_metadata data) := by
  have hndJ : ((jcrewMappings data).map Prod.fst).Nodup := by
    rw [show (jcrewMappings data).map Prod.fst =
      [pstr ("product_code"), pstr ("primary_category"), pstr ("badge"),
       pstr ("list_price"), pstr ("search_price"), pstr ("url_path"),
       pstr ("rating"), pstr ("reviews")] from rfl]
    decide
  have hndE : ((effMappings data).map Prod.fst).Nodup := by
    rw [show (effMappings data).map Prod.fst =
      [pstr ("id"), pstr ("image"), pstr ("rating"), pstr ("reviews"),
       pstr ("sizes")] from rfl]
    decide
  refine ⟨fun k v hm => mem_keys_buildFiltered _ _ _ _ hm hndJ,
    fun k v hm => mem_keys_buildFiltered _ _ _ _ hm hndE, ?_, ?_, ?_⟩
  · have base := mem_keys_buildFiltered (effMappings data)
      (fun v => truthy v || pyEqZero v) (pstr ("id")) (pyGet data (pstr ("id")))
      (by simp [effMappings]) hndE
    simpa [Bool.or_eq_true] using base
  · have hmem : ((pstr ("reviews")),
        (if truthy (pyGet data (pstr ("bvReviewCount"))) then
          JVal.str (pyToStr (pyGet data (pstr ("bvReviewCount")))) else .null)) ∈
        jcrewMappings data := by simp [jcrewMappings]
    have base : (pstr ("reviews")) ∈ (jcrew_build_metadata data).map Prod.fst ↔
        truthy (if truthy (pyGet data (pstr ("bvReviewCount"))) then
          JVal.str (pyToStr (pyGet data (pstr ("bvReviewCount")))) else .null) =
          true :=
      mem_keys_buildFiltered _ truthy _ _ hmem hndJ
    by_cases h : truthy (pyGet data (pstr ("bvReviewCount"))) = true
    · rw [base, if_pos h, h]
      obtain ⟨c, cs, hcs⟩ :=
        List.exists_cons_of_ne_nil (pyToStr_ne_nil _ h)
      rw [hcs]
      simp [truthy]
    · simp only [Bool.not_eq_true] at h
      rw [base, if_neg (by simp [h]), h]
      simp [truthy]
  · intro htr
    exact pair_mem_buildFiltered (effMappings data)
      (fun v => truthy v || pyEqZero v) (pstr ("sizes")) (.str (sizesJoined data))
      (by simp [effMappings]) (by simp [htr])

/-- C6 witness: for an Effulgent record with `rating` 0 and sizes `["S","M"]`,
    the rating key is kept despite being falsy and the sizes are flattened to
    a comma-joined string. -/
theorem C6_metadata_inclusion_witness :
    (pstr ("rating")) ∈ (effulgent_build_metadata (JVal.obj
      [(pstr ("rating"), .num 0),
       (pstr ("sizes"), .arr [.str (pstr ("S")), .str (pstr ("M"))])])).map
        Prod.fst ∧
    (pstr ("sizes"), pstr ("S, M")) ∈ effulgent_build_metadata (JVal.obj
      [(pstr ("rating"), .num 0),
       (pstr ("sizes"), .arr [.str (pstr ("S")), .str (pstr ("M"))])]) := by
  constructor
  · exact ((C6_metadata_inclusion _).2.1 (pstr ("rating"))
      (pyGet (JVal.obj [(pstr ("rating"), .num 0),
        (pstr ("sizes"), .arr [.str (pstr ("S")), .str (pstr ("M"))])])
        (pstr ("rating")))
      (by simp [effMappings])).mpr (by decide)
  · exact (C6_metadata_inclusion _).2.2.2.2 (by decide)

/-! ## Tag building (C1) -/

/-- `EffulgentParser._build_tags`: the lowercased category (when present)
    followed by the lowercased colour names — with no de-duplication pass. -/
def effulgent_build_tags (data : JVal) : List PyStr :=
  let category := pyStrip (asStr (pyOr (pyGet data (pstr ("category"))) (.str [])))
  let catTags := if category.isEmpty then [] else [pyLower category]
  let colorTags := (asArr (pyOr (pyGet data (pstr ("colors"))) (.arr []))).filterMap
    (fun color =>
      let color_name := pyStrip (asStr (pyOr color (.str [])))
      if color_name.isEmpty then none else some (pyLower color_name))
  catTags ++ colorTags

/-- Reference first-seen de-duplication: keep each element's first occurrence,
    dropping its later repeats. -/
def dedupSpec : List PyStr → List PyStr
  | [] => []
  | x :: xs => x :: dedupSpec (xs.filter (fun y => y != x))
termination_by l => l.length
decreasing_by
  simp only [List.length_cons]
  exact Nat.lt_succ_of_le (List.length_filter_le _ _)

lemma dedupSeen_eq_dedupSpec (l : List PyStr) :
    ∀ seen, dedupSeen seen l =
      dedupSpec (l.filter (fun t => decide (¬ t ∈ seen))) := by
  induction l with
  | nil => intro seen; simp [dedupSeen, dedupSpec]
  | cons t ts ih =>
    intro seen
    by_cases h : t ∈ seen
    · rw [show dedupSeen seen (t :: ts) = dedupSeen seen ts from by
        simp [dedupSeen, h]]
      rw [show (t :: ts).filter (fun t => decide (¬ t ∈ seen)) =
        ts.filter (fun t => decide (¬ t ∈ seen)) from by simp [List.filter_cons, h]]
      exact ih seen
    · rw [show dedupSeen seen (t :: ts) = t :: dedupSeen (t :: seen) ts from by
        simp [dedupSeen, h]]
      rw [show (t :: ts).filter (fun t => decide (¬ t ∈ seen)) =
        t :: ts.filter (fun t => decide (¬ t ∈ seen)) from by
          simp [List.filter_cons, h]]
      rw [show dedupSpec (t :: ts.filter (fun t => decide (¬ t ∈ seen))) =
        t :: dedupSpec ((ts.filter (fun t => decide (¬ t ∈ seen))).filter
          (fun y => y != t)) from by rw [dedupSpec]]
      rw [ih (t :: seen)]
      congr 1
      rw [List.filter_filter]
      congr 1
      apply List.filter_congr
      intro a _
      by_cases h1 : a = t <;> by_cases h2 : a ∈ seen <;>
        simp [h1, h2]

lemma mem_dedupSpec (l : List PyStr) (a : PyStr) :
    a ∈ dedupSpec l ↔ a ∈ l := by
  induction l using dedupSpec.induct with
  | case1 => simp [dedupSpec]
  | case2 x xs ih =>
    rw [dedupSpec]
    by_cases h : a = x
    · simp [h]
    · simp only [List.mem_cons, ih, List.mem_filter, h, false_or]
      constructor
      · exact fun hc => hc.1
      · exact fun hc => ⟨hc, by simp [h]⟩

lemma dedupSpec_nodup (l : List PyStr) : (dedupSpec l).Nodup := by
  induction l using dedupSpec.induct with
  | case1 => simp [dedupSpec]
  | case2 x xs ih =>
    rw [dedupSpec]
    refine List.nodup_cons.mpr ⟨?_, ih⟩
    rw [mem_dedupSpec]
    simp

lemma dedupSpec_sublist (l : List PyStr) : (dedupSpec l).Sublist l := by
  induction l using dedupSpec.induct with
  | case1 => simp [dedupSpec]
  | case2 x xs ih =>
    rw [dedupSpec]
    exact List.Sublist.cons₂ x (ih.trans (List.filter_sublist xs))

/-- C1 counterexample: an Effulgent record whose colours repeat a token up to
    case yields the normalized token twice, not exactly once. -/
theorem C1_effulgent_dup_counterexample :
    effulgent_build_tags (JVal.obj [(pstr ("colors"),
      .arr [.str (pstr ("Navy")), .str (pstr ("navy"))])]) =
      [pstr ("navy"), pstr ("navy")] ∧
    (effulgent_build_tags (JVal.obj [(pstr ("colors"),
      .arr [.str (pstr ("Navy")), .str (pstr ("navy"))])])).count
      (pstr ("navy")) = 2 := by
  exact ⟨rfl, by decide⟩

/-- C1 (amended): J.Crew's `_build_tags` does de-duplicate — its output is the
    first-occurrence de-duplication of the raw tag list: duplicate-free, an
    ordered sublist of the raw tags, with exactly the raw tags as members.
    Effulgent's `_build_tags` has no such pass, so repeated normalized
    category/colour tokens recur in its output. -/
theorem C1_jcrew_tags_dedup (data : JVal) :
    jcrew_build_tags data = dedupSpec (jcrew_raw_tags data) ∧
    (jcrew_build_tags data).Nodup ∧
    (jcrew_build_tags data).Sublist (jcrew_raw_tags data) ∧
    (∀ t, t ∈ jcrew_build_tags data ↔ t ∈ jcrew_raw_tags data) := by
  have hfilter : (jcrew_raw_tags data).filter
      (fun t => decide (¬ t ∈ ([] : List PyStr))) = jcrew_raw_tags data := by
    apply List.filter_eq_self.mpr
    intro a _
    simp
  have heq : jcrew_build_tags data = dedupSpec (jcrew_raw_tags data) := by
    rw [show jcrew_build_tags data = dedupSeen [] (jcrew_raw_tags data) from rfl,
      dedupSeen_eq_dedupSpec, hfilter]
  refine ⟨heq, ?_, ?_, ?_⟩
  · rw [heq]; exact dedupSpec_nodup _
  · rw [heq]; exact dedupSpec_sublist _
  · intro t; rw [heq]; exact mem_dedupSpec _ t

/-! ## J.Crew record mapping and schema validation (C7) -/

/-- The string a value must be for the mapper to call string methods on it;
    a non-string makes the mapper fail (Python would raise there). -/
def asStrOpt : JVal → Option PyStr
  | .str s => some s
  | _ => none

/-- The name fallback chain of `JCrewPlpParser._to_product`:
    `productDescription or productCode or "Product"`. -/
def jcrewNameJ (data : JVal) : JVal :=
  pyOr (pyOr (pyGet data (pstr ("productDescription")))
    (pyGet data (pstr ("productCode")))) (.str (pstr ("Product")))

/-- The `availability` field source: `data.get("extendedSize")` must be a
    string or `None` for the pydantic model to accept it. -/
def availabilityOf (v : JVal) : Option (Option PyStr) :=
  match v with
  | .null => some none
  | .str a => some (some a)
  | _ => none

/-- `JCrewPlpParser._to_product`: resolve name, description, price, url,
    tags, availability and metadata, and build the Product; `none` models a
    Python-level failure (a non-string where the code calls a string method,
    or `float()` raising). -/
def jcrew_to_product (data : JVal) : Option Product := do
  let name ← asStrOpt (jcrewNameJ data)
  let description ← asStrOpt (pyOr (pyGet data (pstr ("promoMessageOverride")))
    (jcrewNameJ data))
  let price ← jcrew_resolve_price data
  let path ← asStrOpt (pyOr (pyGet data (pstr ("url"))) (.str []))
  let availability ← availabilityOf (pyGet data (pstr ("extendedSize")))
  some
    { name := pyStrip name
      description := pyStrip description
      price := price
      currency := pstr ("USD")
      url := jcrew_resolve_url path
      tags := jcrew_build_tags data
      availability := availability
      metadata := jcrew_build_metadata data }

/-- The `startswith(("http://", "https://"))` scheme test of `_resolve_url`.
    This is only a scheme-prefix check; it is NOT pydantic's `HttpUrl`
    well-formedness validation, which is third-party library code and is not
    modeled in this development. -/
def isHttpUrl (s : PyStr) : Bool :=
  startsWith (pstr ("http://")) s || startsWith (pstr ("https://")) s

/-- The inline field constraints of `Product` in `app/schemas.py`: `name` at
    least 2 characters, `description` at least 4, `price` nonnegative,
    `currency` 3 to 5 characters.  The `url: HttpUrl` type annotation is
    deliberately NOT represented here: its well-formedness validation lives in
    the pydantic library, outside this repository, so no conclusion about it
    is drawn — a product passing this predicate can still be rejected by
    pydantic's URL parsing. -/
def validFields (p : Product) : Bool :=
  decide (2 ≤ p.name.length) && decide (4 ≤ p.description.length) &&
  decide (0 ≤ p.price) && decide (3 ≤ p.currency.length) &&
  decide (p.currency.length ≤ 5)

/-- A well-behaved optional string field: absent, empty, or stripping to at
    least four characters. -/
def okCand (v : JVal) : Prop :=
  v = .null ∨ v = .str [] ∨ ∃ s, v = .str s ∧ 4 ≤ (pyStrip s).length

lemma isHttpUrl_resolve (path : PyStr) :
    isHttpUrl (jcrew_resolve_url path) = true := by
  unfold jcrew_resolve_url
  by_cases h : (startsWith (pstr ("http://")) (pyStrip path) ||
      startsWith (pstr ("https://")) (pyStrip path)) = true
  · rw [if_pos h]
    exact h
  · rw [if_neg h]
    have hpre : (pstr ("https://")).isPrefixOf
        (jcrewBaseUrl ++ pyStrip path) = true := by
      apply List.isPrefixOf_iff_prefix.mpr
      exact (List.isPrefixOf_iff_prefix.mp (by decide)).trans
        (List.prefix_append _ _)
    simp [isHttpUrl, startsWith, hpre]

lemma nameJ_ok (data : JVal)
    (h1 : okCand (pyGet data (pstr ("productDescription"))))
    (h2 : okCand (pyGet data (pstr ("productCode")))) :
    ∃ s, jcrewNameJ data = .str s ∧ 4 ≤ (pyStrip s).length := by
  by_cases t1 : truthy (pyGet data (pstr ("productDescription"))) = true
  · rcases h1 with hv | hv | ⟨s, hv, hs⟩
    · rw [hv] at t1; simp [truthy] at t1
    · rw [hv] at t1; simp [truthy] at t1
    · refine ⟨s, ?_, hs⟩
      unfold jcrewNameJ pyOr
      rw [hv] at t1 ⊢
      rw [if_pos t1, if_pos t1]
  · by_cases t2 : truthy (pyGet data (pstr ("productCode"))) = true
    · rcases h2 with hv | hv | ⟨s, hv, hs⟩
      · rw [hv] at t2; simp [truthy] at t2
      · rw [hv] at t2; simp [truthy] at t2
      · refine ⟨s, ?_, hs⟩
        unfold jcrewNameJ pyOr
        rw [hv] at t2 ⊢
        rw [if_neg t1, if_pos t2]
    · refine ⟨pstr ("Product"), ?_, by decide⟩
      unfold jcrewNameJ pyOr
      rw [if_neg t1, if_neg t2]

lemma asStrOpt_pyOr_default (v : JVal) (dflt : PyStr)
    (h : v = .null ∨ ∃ s, v = .str s) :
    ∃ sp, asStrOpt (pyOr v (.str dflt)) = some sp := by
  rcases h with hv | ⟨s, hv⟩ <;> subst hv
  · exact ⟨dflt, rfl⟩
  · by_cases t : truthy (.str s) = true
    · refine ⟨s, ?_⟩
      unfold pyOr
      rw [if_pos t]
      rfl
    · refine ⟨dflt, ?_⟩
      unfold pyOr
      rw [if_neg t]
      rfl

lemma availabilityOf_ok (v : JVal) (h : v = .null ∨ ∃ s, v = .str s) :
    ∃ a, availabilityOf v = some a := by
  rcases h with hv | ⟨s, hv⟩ <;> subst hv
  · exact ⟨none, rfl⟩
  · exact ⟨some s, rfl⟩

/-- C7 counterexample: a J.Crew record whose `productDescription` is a
    whitespace-only string maps to a Product with an empty name, violating the
    schema's minimum-length constraint — so mapping can surface a
    ValidationError, contrary to the claim. -/
theorem C7_validation_counterexample :
    (jcrew_to_product (JVal.obj [(pstr ("productDescription"),
      .str (pstr ("  ")))])).map validFields = some false ∧
    (jcrew_to_product (JVal.obj [(pstr ("productDescription"),
      .str (pstr ("  ")))])).map Product.name = some [] := by
  decide

/-- C7 (amended): the fallback chains do guarantee a non-empty name and
    description meeting the minimum-length constraints of `app/schemas.py`
    (together with the nonnegative price and the 3–5 character currency),
    provided the raw name and description candidate fields are absent, empty,
    or strip to at least the schema's four characters, the url and
    extendedSize fields are absent or strings, and the price resolves to a
    nonnegative number.  A truthy candidate that strips below the minimum
    (e.g. whitespace-only) escapes the fallbacks and surfaces a
    ValidationError.  No claim is made about the `url: HttpUrl` constraint:
    its validation is pydantic library code outside this repository, and a
    raw `url` value such as a bare `p:x` path can still make the real
    constructor raise even when every hypothesis here holds. -/
theorem C7_mapping_validity (data : JVal)
    (h1 : okCand (pyGet data (pstr ("productDescription"))))
    (h2 : okCand (pyGet data (pstr ("productCode"))))
    (h3 : okCand (pyGet data (pstr ("promoMessageOverride"))))
    (h4 : (pyGet data (pstr ("url"))) = .null ∨
      ∃ s, pyGet data (pstr ("url")) = .str s)
    (h5 : pyGet data (pstr ("extendedSize")) = .null ∨
      ∃ s, pyGet data (pstr ("extendedSize")) = .str s)
    (h6 : ∃ q, jcrew_resolve_price data = some q ∧ 0 ≤ q) :
    ∃ p, jcrew_to_product data = some p ∧ validFields p = true := by
  obtain ⟨sN, hN, hNlen⟩ := nameJ_ok data h1 h2
  have e1 : asStrOpt (jcrewNameJ data) = some sN := by rw [hN]; rfl
  have e2 : ∃ sD, asStrOpt (pyOr (pyGet data (pstr ("promoMessageOverride")))
      (jcrewNameJ data)) = some sD ∧ 4 ≤ (pyStrip sD).length := by
    by_cases t3 : truthy (pyGet data (pstr ("promoMessageOverride"))) = true
    · rcases h3 with hv | hv | ⟨s, hv, hs⟩
      · rw [hv] at t3; simp [truthy] at t3
      · rw [hv] at t3; simp [truthy] at t3
      · refine ⟨s, ?_, hs⟩
        unfold pyOr
        rw [hv] at t3 ⊢
        rw [if_pos t3]
        rfl
    · refine ⟨sN, ?_, hNlen⟩
      unfold pyOr
      rw [if_neg t3, hN]
      rfl
  obtain ⟨sD, hD1, hD2⟩ := e2
  obtain ⟨q, hq1, hq2⟩ := h6
  obtain ⟨sp, hsp⟩ := asStrOpt_pyOr_default _ [] h4
  obtain ⟨av, hav⟩ := availabilityOf_ok _ h5
  refine ⟨{ name := pyStrip sN, description := pyStrip sD, price := q,
            currency := pstr ("USD"), url := jcrew_resolve_url sp,
            tags := jcrew_build_tags data, availability := av,
            metadata := jcrew_build_metadata data }, ?_, ?_⟩
  · simp [jcrew_to_product, e1, hD1, hq1, hsp, hav]
  · simp only [validFields, Bool.and_eq_true, decide_eq_true_eq]
    refine ⟨⟨⟨⟨?_, ?_⟩, ?_⟩, ?_⟩, ?_⟩
    · omega
    · exact hD2
    · exact hq2
    · decide
    · decide

/-- C7 witness: a record with a proper `productDescription` maps to a product
    meeting the repo-local field constraints. -/
theorem C7_mapping_validity_witness :
    (jcrew_to_product (JVal.obj [(pstr ("productDescription"),
      .str (pstr ("Wool Sweater")))])).map validFields = some true := by
  obtain ⟨p, hp, hv⟩ := C7_mapping_validity
    (JVal.obj [(pstr ("productDescription"), .str (pstr ("Wool Sweater")))])
    (Or.inr (Or.inr ⟨pstr ("Wool Sweater"), rfl, by decide⟩))
    (Or.inl rfl) (Or.inl rfl) (Or.inl rfl) (Or.inl rfl)
    ⟨0, by decide, by decide⟩
  rw [hp]
  simp [hv]

/-! ## Listing prefix structure (C8) -/

/-- `products[:limit] if limit is not None else products`: the limit step of
    `JCrewPlpParser.parse_html` (and `EffulgentParser.parse_js`). -/
def applyLimit (products : List Product) (limit : Option Int) : List Product :=
  match limit with
  | none => products
  | some l => pySliceTo products l

/-- The per-product line blocks of the rendering loop, with their 1-based
    indices baked in. -/
def entryBlocks (c : MarkdownCompressor) : Nat → List Product → List (List PyStr)
  | _, [] => []
  | idx, p :: ps => entryLines c idx p :: entryBlocks c (idx + 1) ps

lemma renderProducts_append (c : MarkdownCompressor) (i : Nat)
    (A B : List Product) : renderProducts c i (A ++ B) =
      renderProducts c i A ++ renderProducts c (i + A.length) B := by
  induction A generalizing i with
  | nil => simp [renderProducts]
  | cons p A ih =>
    have hidx : i + (A.length + 1) = i + 1 + A.length := by omega
    simp only [List.cons_append, List.length_cons, hidx]
    rw [show renderProducts c i (p :: (A ++ B)) =
      entryLines c i p ++ renderProducts c (i + 1) (A ++ B) from rfl]
    rw [show renderProducts c i (p :: A) =
      entryLines c i p ++ renderProducts c (i + 1) A from rfl]
    rw [ih (i + 1), List.append_assoc]

lemma entryBlocks_take (c : MarkdownCompressor) :
    ∀ (k i : Nat) (ps : List Product),
    entryBlocks c i (ps.take k) = (entryBlocks c i ps).take k
  | 0, i, ps => by simp [entryBlocks]
  | k + 1, i, [] => by simp [entryBlocks]
  | k + 1, i, p :: ps => by
    simp only [List.take_succ_cons, entryBlocks]
    rw [entryBlocks_take c k (i + 1) ps]

lemma renderProducts_flatten (c : MarkdownCompressor) :
    ∀ (i : Nat) (ps : List Product),
    renderProducts c i ps = (entryBlocks c i ps).flatten
  | _, [] => rfl
  | i, p :: ps => by
    simp only [renderProducts, entryBlocks, List.flatten_cons]
    rw [renderProducts_flatten c (i + 1) ps]

lemma entryLines_ne_nil (c : MarkdownCompressor) (i : Nat) (p : Product) :
    entryLines c i p ≠ [] := by
  simp [entryLines]

lemma renderProducts_cons_ne_nil (c : MarkdownCompressor) (i : Nat)
    (p : Product) (ps : List Product) : renderProducts c i (p :: ps) ≠ [] := by
  simp [renderProducts, entryLines]

lemma joinNL_append : ∀ (L : List PyStr), L ≠ [] → ∀ M, M ≠ [] →
    joinNL (L ++ M) = joinNL L ++ '\n' :: joinNL M
  | [], h, _, _ => absurd rfl h
  | [x], _, [], hM => absurd rfl hM
  | [x], _, y :: M, _ => rfl
  | x :: z :: L', _, M, hM => by
    have ih := joinNL_append (z :: L') (by simp) M hM
    simp only [List.cons_append] at ih ⊢
    rw [show joinNL (x :: (z :: (L' ++ M))) =
      x ++ '\n' :: joinNL (z :: (L' ++ M)) from rfl]
    rw [show joinNL (x :: z :: L') = x ++ '\n' :: joinNL (z :: L') from rfl]
    rw [ih]
    simp

lemma mem_dropWhile_of (p : Char → Bool) (A : PyStr) (c : Char)
    (hc : c ∈ A) (hpc : p c = false) : c ∈ A.dropWhile p := by
  induction A with
  | nil => cases hc
  | cons a A ih =>
    by_cases hpa : p a = true
    · rw [List.dropWhile_cons, if_pos hpa]
      rcases List.mem_cons.mp hc with rfl | h
      · rw [hpa] at hpc; cases hpc
      · exact ih h
    · rw [List.dropWhile_cons, if_neg hpa]
      exact hc

lemma mem_rdropWhile_of (p : Char → Bool) (l : PyStr) (c : Char)
    (hc : c ∈ l) (hpc : p c = false) : c ∈ List.rdropWhile p l := by
  simp only [List.rdropWhile, List.mem_reverse]
  exact mem_dropWhile_of p l.reverse c (by simpa using hc) hpc

lemma dropWhile_append_of_mem (p : Char → Bool) (A R : PyStr)
    (hex : ∃ c ∈ A, p c = false) :
    List.dropWhile p (A ++ R) = List.dropWhile p A ++ R := by
  obtain ⟨c, hc, hpc⟩ := hex
  have hmem : c ∈ A.dropWhile p := mem_dropWhile_of p A c hc hpc
  have hne : A.dropWhile p ≠ [] := List.ne_nil_of_mem hmem
  rw [List.dropWhile_append, if_neg (by simp [List.isEmpty_iff, hne])]

lemma suffix_dropWhile_append (p : Char → Bool) (U V : PyStr) :
    List.dropWhile p V <:+ List.dropWhile p (U ++ V) := by
  rw [List.dropWhile_append]
  by_cases h : (List.dropWhile p U).isEmpty = true
  · rw [if_pos h]
  · rw [if_neg h]
    exact (List.dropWhile_suffix p).trans (List.suffix_append _ _)

lemma rdropWhile_prefix_append (p : Char → Bool) (X Y : PyStr) :
    List.rdropWhile p X <+: List.rdropWhile p (X ++ Y) := by
  simp only [List.rdropWhile, List.reverse_append]
  apply List.reverse_prefix.mpr
  exact suffix_dropWhile_append p Y.reverse X.reverse

lemma pyStrip_prefix_mono (A R : PyStr)
    (hex : ∃ c ∈ A, isPySpace c = false) :
    pyStrip A <+: pyStrip (A ++ R) := by
  unfold pyStrip
  rw [dropWhile_append_of_mem isPySpace A R hex]
  exact rdropWhile_prefix_append isPySpace (A.dropWhile isPySpace) R

/-- C8: for `0 < k < n`, compressing the first `k` products renders exactly the
    first `k` entry blocks of compressing the full sequence (same 1-based
    numbering and same per-entry content, in input order), the shorter listing
    is a string prefix of the longer one, and a limit keeps exactly the first
    `limit` items in the given order. -/
theorem C8_limit_prefix (c : MarkdownCompressor) (ps : List Product)
    (title : Option PyStr) (k : Nat) (hk0 : 0 < k) (hkn : k < ps.length) :
    entryBlocks c 1 (ps.take k) = (entryBlocks c 1 ps).take k ∧
    c.build_listing (ps.take k) title <+: c.build_listing ps title ∧
    applyLimit ps (some (k : Int)) = ps.take k := by
  refine ⟨entryBlocks_take c k 1 ps, ?_, ?_⟩
  · have hpsne : ps ≠ [] := by
      intro h; subst h; simp at hkn
    have htkne : ps.take k ≠ [] := by
      intro h
      have hl := congrArg List.length h
      rw [List.length_take] at hl
      simp only [List.length_nil] at hl
      omega
    have hform : ∀ qs : List Product, qs ≠ [] → c.build_listing qs title =
        pyStrip (joinNL (((pstr ("## ") ++ pyStrip (headingOf title)) :: [] ::
          renderProducts c 1 qs).map pyRStrip)) := by
      intro qs hqs
      rw [MarkdownCompressor.build_listing,
        if_neg (by simp [List.isEmpty_iff, hqs])]
    rw [hform _ htkne, hform _ hpsne]
    have hrender : renderProducts c 1 ps =
        renderProducts c 1 (ps.take k) ++
          renderProducts c (1 + (ps.take k).length) (ps.drop k) := by
      conv_lhs => rw [← List.take_append_drop k ps]
      exact renderProducts_append c 1 _ _
    rw [hrender]
    have hdropne : ps.drop k ≠ [] := by
      intro h
      have hl : (ps.drop k).length = 0 := by rw [h]; rfl
      rw [List.length_drop] at hl
      omega
    obtain ⟨pd, pdrest, hpd⟩ := List.exists_cons_of_ne_nil hdropne
    have hrdne : renderProducts c (1 + (ps.take k).length) (ps.drop k) ≠ [] := by
      rw [hpd]; exact renderProducts_cons_ne_nil _ _ _ _
    rw [show (pstr ("## ") ++ pyStrip (headingOf title)) :: [] ::
        (renderProducts c 1 (ps.take k) ++
          renderProducts c (1 + (ps.take k).length) (ps.drop k)) =
      ((pstr ("## ") ++ pyStrip (headingOf title)) :: [] ::
        renderProducts c 1 (ps.take k)) ++
          renderProducts c (1 + (ps.take k).length) (ps.drop k) from rfl]
    rw [List.map_append]
    rw [joinNL_append _ (by simp) _ (by simpa using hrdne)]
    apply pyStrip_prefix_mono
    refine ⟨'#', ?_, by decide⟩
    rw [show joinNL (((pstr ("## ") ++ pyStrip (headingOf title)) :: [] ::
        renderProducts c 1 (ps.take k)).map pyRStrip) =
      pyRStrip (pstr ("## ") ++ pyStrip (headingOf title)) ++ '\n' ::
        joinNL (([] :: renderProducts c 1 (ps.take k)).map pyRStrip) from rfl]
    apply List.mem_append_left
    apply mem_rdropWhile_of
    · exact List.mem_append_left _ (by decide)
    · decide
  · simp [applyLimit, pySliceTo]

/-- A sample product used to instantiate the listing theorems. -/
def sampleA : Product :=
  { name := pstr ("Alpha"), description := pstr ("First sample"), price := 5,
    currency := pstr ("USD"), url := pstr ("https://example.com/a"),
    tags := [], availability := none, metadata := [] }

/-- A second sample product used to instantiate the listing theorems. -/
def sampleB : Product :=
  { name := pstr ("Beta"), description := pstr ("Second sample"), price := 12,
    currency := pstr ("USD"), url := pstr ("https://example.com/b"),
    tags := [pstr ("wool")], availability := none, metadata := [] }

/-- C8 witness: with two products and `k = 1`, the limit keeps the first
    product and the one-product listing is a prefix of the two-product one. -/
theorem C8_limit_prefix_witness :
    applyLimit [sampleA, sampleB] (some 1) = [sampleA] ∧
    (MarkdownCompressor.mk 280).build_listing [sampleA] none <+:
      (MarkdownCompressor.mk 280).build_listing [sampleA, sampleB] none := by
  have h := C8_limit_prefix (MarkdownCompressor.mk 280) [sampleA, sampleB]
    none 1 (by decide) (by decide)
  exact ⟨h.2.2, h.2.1⟩

/-! ## Syntax repair: the KEY_RE quoting pass of `EffulgentParser` (C2) -/

/-- `[A-Za-z0-9_]`: the identifier-key character class of `KEY_RE`. -/
def isIdentChar (c : Char) : Bool :=
  ('A' ≤ c && c ≤ 'Z') || ('a' ≤ c && c ≤ 'z') || ('0' ≤ c && c ≤ '9') || c = '_'

/-- Match `\s*([A-Za-z0-9_]+)\s*:` at the head of the input — the part of
    `KEY_RE` after its `[{,]` prefix.  The identifier, whitespace and colon
    classes are pairwise disjoint, so the regex's greedy match is exactly this
    maximal munch.  Returns the key and the text after the colon. -/
def matchKey (rest : PyStr) : Option (PyStr × PyStr) :=
  if ((rest.dropWhile isPySpace).takeWhile isIdentChar).isEmpty then none
  else if (((rest.dropWhile isPySpace).dropWhile isIdentChar).dropWhile
      isPySpace).head? = some ':' then
    some ((rest.dropWhile isPySpace).takeWhile isIdentChar,
      (((rest.dropWhile isPySpace).dropWhile isIdentChar).dropWhile
        isPySpace).tail)
  else none

lemma matchKey_some_length (rest : PyStr) (kr : PyStr × PyStr)
    (h : matchKey rest = some kr) : kr.2.length < rest.length + 1 := by
  by_cases h1 : ((rest.dropWhile isPySpace).takeWhile isIdentChar).isEmpty = true
  · rw [matchKey, if_pos h1] at h
    cases h
  · rw [matchKey, if_neg h1] at h
    by_cases h2 : (((rest.dropWhile isPySpace).dropWhile isIdentChar).dropWhile
        isPySpace).head? = some ':'
    · rw [if_pos h2] at h
      cases h
      dsimp only
      have e1 : ((((rest.dropWhile isPySpace).dropWhile isIdentChar).dropWhile
          isPySpace).tail).length ≤
          (((rest.dropWhile isPySpace).dropWhile isIdentChar).dropWhile
            isPySpace).length := by
        rw [List.length_tail]
        omega
      have e2 : (((rest.dropWhile isPySpace).dropWhile isIdentChar).dropWhile
          isPySpace).length ≤
          ((rest.dropWhile isPySpace).dropWhile isIdentChar).length :=
        (List.dropWhile_suffix isPySpace).length_le
      have e3 : ((rest.dropWhile isPySpace).dropWhile isIdentChar).length ≤
          (rest.dropWhile isPySpace).length :=
        (List.dropWhile_suffix isIdentChar).length_le
      have e4 : (rest.dropWhile isPySpace).length ≤ rest.length :=
        (List.dropWhile_suffix isPySpace).length_le
      omega
    · rw [if_neg h2] at h
      cases h

/-- The fuelled scanning loop of `KEY_RE.sub(self._quote_keys, blob)`: at each
    `{` or `,` whose follower matches `KEY_RE`'s tail, emit the prefix, a
    space, the double-quoted key and the colon, then resume after the match;
    otherwise copy one character.  Each step consumes at least one input
    character, so fuel at least the input length never runs out. -/
def quoteKeysF : Nat → PyStr → PyStr
  | 0, s => s
  | _ + 1, [] => []
  | fuel + 1, c :: rest =>
    if c = '{' || c = ',' then
      match matchKey rest with
      | some kr =>
        c :: ' ' :: '"' :: (kr.1 ++ '"' :: ':' :: quoteKeysF fuel kr.2)
      | none => c :: quoteKeysF fuel rest
    else c :: quoteKeysF fuel rest

/-- `KEY_RE.sub(self._quote_keys, blob)` (`EffulgentParser._extract_entries`). -/
def quoteKeys (s : PyStr) : PyStr := quoteKeysF s.length s

lemma quoteKeysF_congr : ∀ (f1 : Nat) (s : PyStr) (f2 : Nat),
    s.length ≤ f1 → s.length ≤ f2 → quoteKeysF f1 s = quoteKeysF f2 s := by
  intro f1
  induction f1 with
  | zero =>
    intro s f2 h1 _
    have : s = [] := List.length_eq_zero.mp (Nat.le_zero.mp h1)
    subst this
    cases f2 <;> rfl
  | succ f1 ih =>
    intro s f2 h1 h2
    cases s with
    | nil => cases f2 <;> rfl
    | cons c rest =>
      simp only [List.length_cons] at h1 h2
      cases f2 with
      | zero => omega
      | succ f2 =>
        by_cases hc : (c = '{' || c = ',') = true
        · cases hm : matchKey rest with
          | none =>
            simp only [quoteKeysF, hm, if_pos hc]
            rw [ih rest f2 (by omega) (by omega)]
          | some kr =>
            have hlen := matchKey_some_length rest kr hm
            simp only [quoteKeysF, hm, if_pos hc]
            rw [ih kr.2 f2 (by omega) (by omega)]
        · simp only [quoteKeysF, if_neg hc]
          rw [ih rest f2 (by omega) (by omega)]

/-- The one-step unfolding of `quoteKeys`. -/
lemma quoteKeys_cons (c : Char) (rest : PyStr) :
    quoteKeys (c :: rest) =
      if c = '{' || c = ',' then
        match matchKey rest with
        | some kr => c :: ' ' :: '"' :: (kr.1 ++ '"' :: ':' :: quoteKeys kr.2)
        | none => c :: quoteKeys rest
      else c :: quoteKeys rest := by
  show quoteKeysF (rest.length + 1) (c :: rest) = _
  by_cases hc : (c = '{' || c = ',') = true
  · cases hm : matchKey rest with
    | none =>
      simp only [quoteKeysF, hm, if_pos hc]
      rfl
    | some kr =>
      have hlen := matchKey_some_length rest kr hm
      simp only [quoteKeysF, hm, if_pos hc]
      rw [show quoteKeys kr.2 = quoteKeysF kr.2.length kr.2 from rfl,
        quoteKeysF_congr rest.length kr.2 kr.2.length (by omega) (by omega)]
  · simp only [quoteKeysF, if_neg hc]
    rfl

/-- C2 counterexample: repairing the literal `\x7ba: "x, y: z"\x7d` also rewrites
    the `, y:` occurrence inside the quoted string value (the pattern scan is
    not string-aware), so the value's characters `x, y: z` no longer appear
    contiguously in the output. -/
theorem C2_string_value_counterexample :
    quoteKeys (pstr ("\x7ba: \"x, y: z\"\x7d")) =
      pstr ("\x7b \"a\": \"x, \"y\": z\"\x7d") ∧
    ¬ (pstr ("x, y: z")) <:+: quoteKeys (pstr ("\x7ba: \"x, y: z\"\x7d")) := by
  exact ⟨by decide, by decide⟩

lemma space_not_prefixChar (c : Char) (h : isPySpace c = true) :
    (c = '{' || c = ',') = false := by
  simp only [isPySpace, Bool.or_eq_true, decide_eq_true_eq] at h
  rcases h with ((((h | h) | h) | h) | h) | h <;> subst h <;> decide

lemma space_not_ident (c : Char) (h : isPySpace c = true) :
    isIdentChar c = false := by
  simp only [isPySpace, Bool.or_eq_true, decide_eq_true_eq] at h
  rcases h with ((((h | h) | h) | h) | h) | h <;> subst h <;> decide

lemma ident_not_prefixChar (c : Char) (h : isIdentChar c = true) :
    (c = '{' || c = ',') = false := by
  by_cases h1 : c = '{'
  · subst h1; exact absurd h (by decide)
  by_cases h2 : c = ','
  · subst h2; exact absurd h (by decide)
  simp [h1, h2]

lemma quoteKeys_copy_append (xs : PyStr) (t : PyStr)
    (hxs : ∀ c ∈ xs, (c = '{' || c = ',') = false) :
    quoteKeys (xs ++ t) = xs ++ quoteKeys t := by
  induction xs with
  | nil => rfl
  | cons x xs ih =>
    have hx := hxs x (List.mem_cons_self x xs)
    rw [List.cons_append, quoteKeys_cons, if_neg (by simp [hx]),
      ih (fun c hc => hxs c (List.mem_cons_of_mem _ hc))]
    rfl

lemma quoteKeys_cons_head (d : Char) (t : PyStr) :
    ∃ t2, quoteKeys (d :: t) = d :: t2 := by
  rw [quoteKeys_cons]
  by_cases hd : (d = '{' || d = ',') = true
  · rw [if_pos hd]
    cases hm : matchKey t with
    | some kr => exact ⟨_, rfl⟩
    | none => exact ⟨_, rfl⟩
  · rw [if_neg hd]
    exact ⟨_, rfl⟩

lemma dropWhile_append_sat (p : Char → Bool) (xs t : PyStr)
    (h : ∀ c ∈ xs, p c = true) :
    (xs ++ t).dropWhile p = t.dropWhile p := by
  induction xs with
  | nil => rfl
  | cons x xs ih =>
    rw [List.cons_append, List.dropWhile_cons,
      if_pos (h x (List.mem_cons_self x xs))]
    exact ih (fun c hc => h c (List.mem_cons_of_mem _ hc))

lemma takeWhile_append_sat (p : Char → Bool) (xs t : PyStr)
    (h : ∀ c ∈ xs, p c = true) :
    (xs ++ t).takeWhile p = xs ++ t.takeWhile p := by
  induction xs with
  | nil => rfl
  | cons x xs ih =>
    rw [List.cons_append, List.takeWhile_cons,
      if_pos (h x (List.mem_cons_self x xs)),
      ih (fun c hc => h c (List.mem_cons_of_mem _ hc))]
    rfl

lemma dropWhile_cons_false (p : Char → Bool) (c : Char) (t : PyStr)
    (h : p c = false) : (c :: t).dropWhile p = c :: t := by
  rw [List.dropWhile_cons, if_neg (by simp [h])]

lemma takeWhile_cons_false (p : Char → Bool) (c : Char) (t : PyStr)
    (h : p c = false) : (c :: t).takeWhile p = [] := by
  rw [List.takeWhile_cons, if_neg (by simp [h])]

lemma dropWhile_head_false (p : Char → Bool) :
    ∀ (l : PyStr) (c : Char) (t : PyStr), l.dropWhile p = c :: t → p c = false
  | [], c, t, h => by cases h
  | a :: l, c, t, h => by
    by_cases hpa : p a = true
    · rw [List.dropWhile_cons, if_pos hpa] at h
      exact dropWhile_head_false p l c t h
    · rw [List.dropWhile_cons, if_neg hpa] at h
      cases h
      simpa using hpa

lemma takeWhile_eq_nil_head (p : Char → Bool) (c : Char) (t : PyStr)
    (h : (c :: t).takeWhile p = []) : p c = false := by
  by_cases hp : p c = true
  · rw [List.takeWhile_cons, if_pos hp] at h
    cases h
  · simpa using hp

lemma matchKey_eq_none_iff (rest : PyStr) :
    matchKey rest = none ↔
      ((rest.dropWhile isPySpace).takeWhile isIdentChar).isEmpty = true ∨
      ¬ (((rest.dropWhile isPySpace).dropWhile isIdentChar).dropWhile
          isPySpace).head? = some ':' := by
  unfold matchKey
  by_cases h1 : ((rest.dropWhile isPySpace).takeWhile isIdentChar).isEmpty = true
  · simp [h1]
  · by_cases h2 : (((rest.dropWhile isPySpace).dropWhile isIdentChar).dropWhile
        isPySpace).head? = some ':'
    · simp [h1, h2]
    · simp [h1, h2]

lemma probe_tail (s2 : PyStr)
    (hhead : ∀ e u, s2 = e :: u → isIdentChar e = false) :
    (List.dropWhile isPySpace (List.dropWhile isIdentChar
      (s2.takeWhile isPySpace ++ quoteKeys (s2.dropWhile isPySpace)))).head? =
      (s2.dropWhile isPySpace).head? := by
  cases hw : s2.takeWhile isPySpace with
  | cons w0 wrest =>
    have hw0ws : isPySpace w0 = true := by
      have hmem : w0 ∈ s2.takeWhile isPySpace := by
        rw [hw]; exact List.mem_cons_self _ _
      exact List.mem_takeWhile_imp hmem
    rw [List.cons_append,
      dropWhile_cons_false isIdentChar w0 _ (space_not_ident w0 hw0ws)]
    rw [show w0 :: (wrest ++ quoteKeys (s2.dropWhile isPySpace)) =
      (w0 :: wrest) ++ quoteKeys (s2.dropWhile isPySpace) from rfl]
    rw [dropWhile_append_sat isPySpace _ _ (by
      rw [← hw]
      exact fun ch hc => List.mem_takeWhile_imp hc)]
    cases hs3 : s2.dropWhile isPySpace with
    | nil => rfl
    | cons e u =>
      have hews := dropWhile_head_false isPySpace s2 e u hs3
      obtain ⟨u2, hu2⟩ := quoteKeys_cons_head e u
      rw [hu2, dropWhile_cons_false isPySpace e u2 hews]
      rfl
  | nil =>
    have hs3eq : s2.dropWhile isPySpace = s2 := by
      cases hs2c : s2 with
      | nil => rfl
      | cons e u =>
        have hews : isPySpace e = false := by
          apply takeWhile_eq_nil_head isPySpace e u
          rw [← hs2c]
          exact hw
        exact dropWhile_cons_false isPySpace e u hews
    rw [List.nil_append, hs3eq]
    cases hs2c : s2 with
    | nil => rfl
    | cons e u =>
      have heid : isIdentChar e = false := hhead e u hs2c
      have hews : isPySpace e = false := by
        apply takeWhile_eq_nil_head isPySpace e u
        rw [← hs2c]
        exact hw
      obtain ⟨u2, hu2⟩ := quoteKeys_cons_head e u
      rw [hu2, dropWhile_cons_false isIdentChar e u2 heid,
        dropWhile_cons_false isPySpace e u2 hews]
      rfl

lemma matchKey_none_quoteKeys (s : PyStr) (h : matchKey s = none) :
    matchKey (quoteKeys s) = none := by
  have hwsall : ∀ c ∈ s.takeWhile isPySpace, isPySpace c = true :=
    fun c hc => List.mem_takeWhile_imp hc
  have hq : quoteKeys s =
      s.takeWhile isPySpace ++ quoteKeys (s.dropWhile isPySpace) := by
    conv_lhs => rw [← List.takeWhile_append_dropWhile (p := isPySpace) (l := s)]
    exact quoteKeys_copy_append _ _
      (fun c hc => space_not_prefixChar c (hwsall c hc))
  have hmk_ws : ∀ X : PyStr,
      matchKey (s.takeWhile isPySpace ++ X) = matchKey X := by
    intro X
    unfold matchKey
    rw [dropWhile_append_sat _ _ _ hwsall]
  rw [hq, hmk_ws]
  have hms : matchKey (s.dropWhile isPySpace) = none := by
    have hthis := hmk_ws (s.dropWhile isPySpace)
    rw [List.takeWhile_append_dropWhile] at hthis
    rw [← hthis]
    exact h
  have hs1nows : (s.dropWhile isPySpace).dropWhile isPySpace =
      s.dropWhile isPySpace := List.dropWhile_idempotent _ _
  generalize hgen : s.dropWhile isPySpace = s1 at hms hs1nows ⊢
  cases s1 with
  | nil => rfl
  | cons d t =>
    have hdnows : isPySpace d = false := by
      by_contra hx
      have hx2 : isPySpace d = true := by simpa using hx
      rw [List.dropWhile_cons, if_pos hx2] at hs1nows
      have hlen := congrArg List.length hs1nows
      have hle : (t.dropWhile isPySpace).length ≤ t.length :=
        (List.dropWhile_suffix _).length_le
      simp only [List.length_cons] at hlen
      omega
    by_cases hident : isIdentChar d = true
    · have hkeyall : ∀ ch ∈ (d :: t).takeWhile isIdentChar,
          isIdentChar ch = true := fun ch hc => List.mem_takeWhile_imp hc
      have hs2head : ∀ e u, (d :: t).dropWhile isIdentChar = e :: u →
          isIdentChar e = false :=
        fun e u he => dropWhile_head_false isIdentChar _ e u he
      have hqk : quoteKeys (d :: t) =
          (d :: t).takeWhile isIdentChar ++
            (((d :: t).dropWhile isIdentChar).takeWhile isPySpace ++
              quoteKeys (((d :: t).dropWhile isIdentChar).dropWhile
                isPySpace)) := by
        conv_lhs =>
          rw [← List.takeWhile_append_dropWhile (p := isIdentChar) (l := d :: t)]
        rw [quoteKeys_copy_append _ _
          (fun ch hc => ident_not_prefixChar ch (hkeyall ch hc))]
        congr 1
        conv_lhs =>
          rw [← List.takeWhile_append_dropWhile (p := isPySpace)
            (l := (d :: t).dropWhile isIdentChar)]
        exact quoteKeys_copy_append _ _ (fun ch hc =>
          space_not_prefixChar ch (List.mem_takeWhile_imp hc))
    -- replace the rewritten text and check its probe
      rw [hqk]
      rw [matchKey_eq_none_iff]
      right
      rw [show (d :: t).takeWhile isIdentChar = d :: t.takeWhile isIdentChar
        from by rw [List.takeWhile_cons, if_pos hident]]
      rw [List.cons_append, dropWhile_cons_false isPySpace d _ hdnows]
      rw [show List.dropWhile isIdentChar (d :: (t.takeWhile isIdentChar ++
          (((d :: t).dropWhile isIdentChar).takeWhile isPySpace ++
            quoteKeys (((d :: t).dropWhile isIdentChar).dropWhile
              isPySpace)))) =
        List.dropWhile isIdentChar
          (((d :: t).dropWhile isIdentChar).takeWhile isPySpace ++
            quoteKeys (((d :: t).dropWhile isIdentChar).dropWhile isPySpace))
        from by
          rw [List.dropWhile_cons, if_pos hident,
            dropWhile_append_sat isIdentChar _ _
              (fun ch hc => List.mem_takeWhile_imp hc)]]
      rw [probe_tail _ hs2head]
      rcases (matchKey_eq_none_iff (d :: t)).mp hms with hk | hp
      · exfalso
        rw [dropWhile_cons_false isPySpace d t hdnows,
          List.takeWhile_cons, if_pos hident] at hk
        simp at hk
      · rw [dropWhile_cons_false isPySpace d t hdnows] at hp
        exact hp
    · obtain ⟨t2, ht2⟩ := quoteKeys_cons_head d t
      rw [ht2, matchKey_eq_none_iff]
      left
      rw [dropWhile_cons_false isPySpace d t2 hdnows,
        takeWhile_cons_false isIdentChar d t2 (by simpa using hident)]
      rfl

lemma matchKey_space_quote (X : PyStr) : matchKey (' ' :: '"' :: X) = none := by
  unfold matchKey
  rw [show List.dropWhile isPySpace (' ' :: '"' :: X) = '"' :: X from by
    rw [List.dropWhile_cons, if_pos (by decide),
      List.dropWhile_cons, if_neg (by decide)]]
  rw [show List.takeWhile isIdentChar ('"' :: X) = [] from by
    rw [List.takeWhile_cons, if_neg (by decide)]]
  rfl

/-- C2 (amended): the syntax-repair pass rewrites every unquoted identifier
    key occurring after `{` or `,` wherever it appears in the literal —
    including occurrences inside quoted string values, whose characters are
    therefore not preserved (the scan is not string-aware).  One pass rewrites
    them all: the repair is idempotent. -/
theorem C2_quote_keys_idempotent (s : PyStr) :
    quoteKeys (quoteKeys s) = quoteKeys s := by
  have main : ∀ (n : Nat) (s : PyStr), s.length ≤ n →
      quoteKeys (quoteKeys s) = quoteKeys s := by
    intro n
    induction n with
    | zero =>
      intro s hl
      have hnil : s = [] := List.length_eq_zero.mp (Nat.le_zero.mp hl)
      subst hnil
      rfl
    | succ n ih =>
      intro s hlen
      cases s with
      | nil => rfl
      | cons c rest =>
        have hrestlen : rest.length ≤ n := by
          simp only [List.length_cons] at hlen
          omega
        by_cases hc : (c = '{' || c = ',') = true
        · cases hm : matchKey rest with
          | none =>
            have hE : quoteKeys (c :: rest) = c :: quoteKeys rest := by
              rw [quoteKeys_cons, if_pos hc, hm]
            rw [hE, quoteKeys_cons, if_pos hc, matchKey_none_quoteKeys rest hm]
            show c :: quoteKeys (quoteKeys rest) = c :: quoteKeys rest
            rw [ih rest hrestlen]
          | some kr =>
            obtain ⟨key, r3⟩ := kr
            have hr3len : r3.length ≤ n := by
              have := matchKey_some_length rest (key, r3) hm
              simp only at this
              simp only [List.length_cons] at hlen
              omega
            have hkeyident : ∀ ch ∈ key, isIdentChar ch = true := by
              intro ch hch
              unfold matchKey at hm
              by_cases h1 : ((rest.dropWhile isPySpace).takeWhile
                  isIdentChar).isEmpty = true
              · rw [if_pos h1] at hm; cases hm
              · rw [if_neg h1] at hm
                by_cases h2 : (((rest.dropWhile isPySpace).dropWhile
                    isIdentChar).dropWhile isPySpace).head? = some ':'
                · rw [if_pos h2] at hm
                  cases hm
                  exact List.mem_takeWhile_imp hch
                · rw [if_neg h2] at hm; cases hm
            have hE : quoteKeys (c :: rest) =
                c :: ' ' :: '"' :: (key ++ '"' :: ':' :: quoteKeys r3) := by
              rw [quoteKeys_cons, if_pos hc, hm]
            rw [hE, quoteKeys_cons, if_pos hc, matchKey_space_quote]
            show c :: quoteKeys (' ' :: '"' ::
              (key ++ '"' :: ':' :: quoteKeys r3)) = _
            rw [show (' ' :: '"' :: (key ++ '"' :: ':' :: quoteKeys r3) :
                PyStr) =
              [' ', '"'] ++ (key ++ (['"', ':'] ++ quoteKeys r3)) from by
                simp]
            rw [quoteKeys_copy_append [' ', '"'] _ (by decide)]
            rw [quoteKeys_copy_append key _
              (fun ch hch => ident_not_prefixChar ch (hkeyident ch hch))]
            rw [quoteKeys_copy_append ['"', ':'] _ (by decide)]
            rw [ih r3 hr3len]
        · have hE : quoteKeys (c :: rest) = c :: quoteKeys rest := by
            rw [quoteKeys_cons, if_neg hc]
          rw [hE, quoteKeys_cons, if_neg hc, ih rest hrestlen]
  exact main s.length s (Nat.le_refl _)

/-! ## Boundary scanner: `EffulgentParser._extract_array` (C3) -/

/-- Scanner state: inside a string literal or not, pending backslash escape,
    and the active quote character. -/
structure ScanSt where
  inString : Bool
  escape : Bool
  quote : Char
deriving DecidableEq, Repr

/-- `_extract_array` error cases: opening bracket never found, or the input
    ends before the bracket depth returns to zero. -/
inductive ExtractErr where
  | noOpen
  | noClose
deriving DecidableEq, Repr

/-- The string-literal part of the loop body of `_extract_array`: an escaped
    character clears the escape flag, a backslash sets it, the matching
    unescaped quote leaves the string; outside a string a quote of either
    style enters one. -/
def sStep (st : ScanSt) (ch : Char) : ScanSt :=
  if st.inString then
    if st.escape then { st with escape := false }
    else if ch = '\\' then { st with escape := true }
    else if ch = st.quote then { st with inString := false }
    else st
  else if ch = '"' ∨ ch = squote then { st with inString := true, quote := ch }
  else st

/-- The bracket-depth contribution of one character: brackets count only
    outside string literals. -/
def depthDelta (st : ScanSt) (ch : Char) : Int :=
  if st.inString then 0
  else if ch = '"' ∨ ch = squote then 0
  else if ch = '[' then 1
  else if ch = ']' then -1
  else 0

/-- Declarative depth: the bracket depth after processing the whole input from
    the given state and starting depth. -/
def specDepth (st : ScanSt) (d : Int) : PyStr → Int
  | [] => d
  | ch :: rest => specDepth (sStep st ch) (d + depthDelta st ch) rest

/-- The character loop of `_extract_array`, started at the opening bracket:
    mirror of the Python branch structure, returning the consumed prefix when
    the depth returns to zero and failing when the input ends first. -/
def scanArray (st : ScanSt) (depth : Int) : PyStr → Except ExtractErr PyStr
  | [] => .error .noClose
  | ch :: rest =>
    if st.inString then
      if st.escape then
        (scanArray { st with escape := false } depth rest).map (fun s => ch :: s)
      else if ch = '\\' then
        (scanArray { st with escape := true } depth rest).map (fun s => ch :: s)
      else if ch = st.quote then
        (scanArray { st with inString := false } depth rest).map (fun s => ch :: s)
      else (scanArray st depth rest).map (fun s => ch :: s)
    else if ch = '"' ∨ ch = squote then
      (scanArray { st with inString := true, quote := ch } depth rest).map
        (fun s => ch :: s)
    else if ch = '[' then
      (scanArray st (depth + 1) rest).map (fun s => ch :: s)
    else if ch = ']' then
      if depth - 1 = 0 then .ok [ch]
      else (scanArray st (depth - 1) rest).map (fun s => ch :: s)
    else (scanArray st depth rest).map (fun s => ch :: s)

/-- The scanner's start state (`in_string = False`, `escape = False`). -/
def scanInit : ScanSt := { inString := false, escape := false, quote := squote }

/-- The suffix of the input from the first `[` at or after `start_idx`
    (empty when there is no such bracket): the `while ... != "["` search of
    `_extract_array`. -/
def arrayTail (text : PyStr) (start : Nat) : PyStr :=
  (text.drop start).dropWhile (fun ch => ch != '[')

/-- `EffulgentParser._extract_array`: skip to the first `[` at or after
    `start_idx` (failing if there is none) and scan from it. -/
def effulgent_extract_array (text : PyStr) (start : Nat) :
    Except ExtractErr PyStr :=
  if (arrayTail text start).isEmpty then .error .noOpen
  else scanArray scanInit 0 (arrayTail text start)

lemma scanArray_cons (st : ScanSt) (d : Int) (ch : Char) (rest : PyStr) :
    scanArray st d (ch :: rest) =
      if st.inString = false ∧ ch = ']' ∧ d - 1 = 0 then .ok [ch]
      else (scanArray (sStep st ch) (d + depthDelta st ch) rest).map
        (fun s => ch :: s) := by
  by_cases h1 : st.inString
  · rw [if_neg (by simp [h1])]
    by_cases h2 : st.escape
    · simp [scanArray, sStep, depthDelta, h1, h2]
    · by_cases h3 : ch = '\\'
      · simp [scanArray, sStep, depthDelta, h1, h2, h3]
      · by_cases h4 : ch = st.quote
        · rw [h4] at h3
          simp [scanArray, sStep, depthDelta, h1, h2, h3, h4]
        · simp [scanArray, sStep, depthDelta, h1, h2, h3, h4]
  · by_cases h5 : ch = '"' ∨ ch = squote
    · rw [if_neg (by
        rintro ⟨-, hch, -⟩
        rcases h5 with h5 | h5 <;> rw [h5] at hch <;> exact absurd hch (by decide))]
      simp [scanArray, sStep, depthDelta, h1, h5]
    · by_cases h6 : ch = '['
      · subst h6
        have hqa : ¬ ('[' = '"') := by decide
        have hqb : ¬ ('[' = squote) := by decide
        rw [if_neg (by rintro ⟨-, hch, -⟩; exact absurd hch (by decide))]
        simp [scanArray, sStep, depthDelta, h1, hqa, hqb]
      · by_cases h7 : ch = ']'
        · subst h7
          have hqa : ¬ (']' = '"') := by decide
          have hqb : ¬ (']' = squote) := by decide
          by_cases h8 : d - 1 = 0
          · rw [if_pos ⟨by simpa using h1, rfl, h8⟩]
            simp [scanArray, h1, hqa, hqb, h8]
          · have hL : scanArray st d (']' :: rest) =
                if d - 1 = 0 then .ok [']']
                else (scanArray st (d - 1) rest).map (fun s => ']' :: s) := by
              simp only [scanArray]
              rw [if_neg h1, if_neg (by simp [hqa, hqb]), if_neg h6, if_pos trivial]
            have hs : sStep st ']' = st := by
              simp [sStep, h1, hqa, hqb]
            have hd : d + depthDelta st ']' = d - 1 := by
              have hδ : depthDelta st ']' = -1 := by
                simp [depthDelta, h1, hqa, hqb, h6]
              rw [hδ]
              omega
            rw [if_neg (by simp [h8]), hL, if_neg h8, hs, hd]
        · rcases (not_or.mp h5) with ⟨hqa, hqb⟩
          rw [if_neg (by simp [h7])]
          simp [scanArray, sStep, depthDelta, h1, hqa, hqb, h6, h7]

lemma map_cons_eq_ok (X : Except ExtractErr PyStr) (ch : Char) (s : PyStr) :
    X.map (fun t => ch :: t) = .ok s ↔ ∃ t, X = .ok t ∧ s = ch :: t := by
  cases X <;> simp [Except.map]
  exact comm

lemma map_cons_eq_err (X : Except ExtractErr PyStr) (ch : Char) (e : ExtractErr) :
    X.map (fun t => ch :: t) = .error e ↔ X = .error e := by
  cases X <;> simp [Except.map]

lemma depthDelta_lbrack (st : ScanSt) (hins : st.inString = false) :
    depthDelta st '[' = 1 := by
  have hqa : ¬ ('[' = '"') := by decide
  have hqb : ¬ ('[' = squote) := by decide
  simp [depthDelta, hins, hqa, hqb]

lemma depthDelta_rbrack (st : ScanSt) (hins : st.inString = false) :
    depthDelta st ']' = -1 := by
  have hqa : ¬ (']' = '"') := by decide
  have hqb : ¬ (']' = squote) := by decide
  have hqc : ¬ (']' = '[') := by decide
  simp [depthDelta, hins, hqa, hqb, hqc]

lemma depthDelta_cases (st : ScanSt) (ch : Char) :
    depthDelta st ch = 0 ∨
      (depthDelta st ch = 1 ∧ st.inString = false ∧ ch = '[') ∨
      (depthDelta st ch = -1 ∧ st.inString = false ∧ ch = ']') := by
  unfold depthDelta
  split_ifs with hA hB hC hD
  · exact Or.inl rfl
  · exact Or.inl rfl
  · exact Or.inr (Or.inl ⟨rfl, by simpa using hA, hC⟩)
  · exact Or.inr (Or.inr ⟨rfl, by simpa using hA, hD⟩)
  · exact Or.inl rfl

/-- The scanner is only ever started either with positive depth or, at the
    top level, at an opening bracket outside any string. -/
def goodStart (st : ScanSt) (d : Int) (cs : PyStr) : Prop :=
  0 < d ∨ (d = 0 ∧ st.inString = false ∧ cs.head? = some '[')

lemma goodStart_step (st : ScanSt) (d : Int) (ch : Char) (rest : PyStr)
    (hgood : goodStart st d (ch :: rest))
    (hret : ¬ (st.inString = false ∧ ch = ']' ∧ d - 1 = 0)) :
    0 < d + depthDelta st ch := by
  rcases depthDelta_cases st ch with h0 | ⟨h1, hin, hch⟩ | ⟨h1, hin, hch⟩
  · rcases hgood with hd | ⟨hd0, hins, hhead⟩
    · omega
    · exfalso
      have hch : ch = '[' := by simpa using hhead
      subst hch
      have := depthDelta_lbrack st hins
      omega
  · have hd0 : 0 ≤ d := by
      rcases hgood with hd | ⟨hd0, -, -⟩ <;> omega
    omega
  · have hdpos : 0 < d := by
      rcases hgood with hd | ⟨hd0, -, hhead⟩
      · exact hd
      · exfalso
        have : ch = '[' := by simpa using hhead
        rw [this] at hch
        exact absurd hch (by decide)
    have hne : ¬ (d - 1 = 0) := fun hc => hret ⟨hin, hch, hc⟩
    omega

lemma scanArray_ok_iff (cs : PyStr) :
    ∀ (st : ScanSt) (d : Int), goodStart st d cs →
    ∀ s, (scanArray st d cs = .ok s ↔
      ∃ n, 0 < n ∧ n ≤ cs.length ∧ s = List.take n cs ∧
        specDepth st d (List.take n cs) = 0 ∧
        ∀ m, 0 < m → m < n → specDepth st d (List.take m cs) ≠ 0) := by
  induction cs with
  | nil =>
    intro st d hgood s
    constructor
    · intro h
      exact absurd h (by simp [scanArray])
    · rintro ⟨n, hn0, hnle, -, -, -⟩
      simp at hnle
      omega
  | cons ch rest ih =>
    intro st d hgood s
    rw [scanArray_cons]
    by_cases hret : st.inString = false ∧ ch = ']' ∧ d - 1 = 0
    · rw [if_pos hret]
      obtain ⟨hins, hch, hd1⟩ := hret
      have hδ : depthDelta st ch = -1 := by
        rw [hch]
        exact depthDelta_rbrack st hins
      constructor
      · intro hok
        injection hok with h
        refine ⟨1, one_pos, by simp, ?_, ?_, ?_⟩
        · rw [← h]
          rfl
        · show d + depthDelta st ch = 0
          omega
        · intro m hm0 hmlt
          omega
      · rintro ⟨n, hn0, hnle, hseq, hdep, hmin⟩
        have hn1 : n = 1 := by
          by_contra hc
          apply hmin 1 one_pos (by omega)
          show d + depthDelta st ch = 0
          omega
        subst hn1
        rw [hseq]
        rfl
    · rw [if_neg hret]
      have hd2 : 0 < d + depthDelta st ch := goodStart_step st d ch rest hgood hret
      have hgood2 : goodStart (sStep st ch) (d + depthDelta st ch) rest :=
        Or.inl hd2
      constructor
      · intro hok
        rw [map_cons_eq_ok] at hok
        obtain ⟨t, ht, rfl⟩ := hok
        obtain ⟨n, hn0, hnle, hteq, hdep, hmin⟩ :=
          (ih (sStep st ch) (d + depthDelta st ch) hgood2 t).mp ht
        refine ⟨n + 1, by omega, by simp ; omega, ?_, ?_, ?_⟩
        · rw [List.take_succ_cons, hteq]
        · show specDepth (sStep st ch) (d + depthDelta st ch)
            (List.take n rest) = 0
          exact hdep
        · intro m hm0 hmlt
          cases m with
          | zero => omega
          | succ m2 =>
            show specDepth (sStep st ch) (d + depthDelta st ch)
              (List.take m2 rest) ≠ 0
            cases Nat.eq_zero_or_pos m2 with
            | inl hz =>
              subst hz
              show d + depthDelta st ch ≠ 0
              omega
            | inr hp => exact hmin m2 hp (by omega)
      · rintro ⟨n, hn0, hnle, hseq, hdep, hmin⟩
        cases n with
        | zero => omega
        | succ n2 =>
          have hn2pos : 0 < n2 := by
            by_contra hc
            have hz : n2 = 0 := by omega
            subst hz
            have hone : d + depthDelta st ch = 0 := hdep
            omega
          rw [map_cons_eq_ok]
          refine ⟨List.take n2 rest, ?_, ?_⟩
          · apply (ih (sStep st ch) (d + depthDelta st ch) hgood2
              (List.take n2 rest)).mpr
            refine ⟨n2, hn2pos, by simp at hnle ; omega, rfl, ?_, ?_⟩
            · exact hdep
            · intro m hm0 hmlt
              exact hmin (m + 1) (by omega) (by omega)
          · rw [hseq]
            rfl

lemma scanArray_err_iff (cs : PyStr) :
    ∀ (st : ScanSt) (d : Int), goodStart st d cs →
    (scanArray st d cs = .error .noClose ↔
      ∀ n, 0 < n → n ≤ cs.length → specDepth st d (List.take n cs) ≠ 0) := by
  induction cs with
  | nil =>
    intro st d hgood
    constructor
    · intro _ n hn0 hnle
      simp at hnle
      omega
    · intro _
      simp [scanArray]
  | cons ch rest ih =>
    intro st d hgood
    rw [scanArray_cons]
    by_cases hret : st.inString = false ∧ ch = ']' ∧ d - 1 = 0
    · rw [if_pos hret]
      obtain ⟨hins, hch, hd1⟩ := hret
      have hδ : depthDelta st ch = -1 := by
        rw [hch]
        exact depthDelta_rbrack st hins
      constructor
      · intro h
        exact absurd h (by simp)
      · intro hall
        exfalso
        apply hall 1 one_pos (by simp)
        show d + depthDelta st ch = 0
        omega
    · rw [if_neg hret]
      have hd2 : 0 < d + depthDelta st ch := goodStart_step st d ch rest hgood hret
      have hgood2 : goodStart (sStep st ch) (d + depthDelta st ch) rest :=
        Or.inl hd2
      rw [map_cons_eq_err, ih (sStep st ch) (d + depthDelta st ch) hgood2]
      constructor
      · intro hall n hn0 hnle
        cases n with
        | zero => omega
        | succ n2 =>
          cases Nat.eq_zero_or_pos n2 with
          | inl hz =>
            subst hz
            show d + depthDelta st ch ≠ 0
            omega
          | inr hp =>
            show specDepth (sStep st ch) (d + depthDelta st ch)
              (List.take n2 rest) ≠ 0
            exact hall n2 hp (by simp at hnle ; omega)
      · intro hall n hn0 hnle
        exact hall (n + 1) (by omega) (by simp ; omega)

lemma scanArray_ne_noOpen (cs : PyStr) :
    ∀ (st : ScanSt) (d : Int), scanArray st d cs ≠ .error .noOpen := by
  induction cs with
  | nil =>
    intro st d h
    simp [scanArray] at h
  | cons ch rest ih =>
    intro st d h
    rw [scanArray_cons] at h
    by_cases hret : st.inString = false ∧ ch = ']' ∧ d - 1 = 0
    · rw [if_pos hret] at h
      simp at h
    · rw [if_neg hret] at h
      rw [map_cons_eq_err] at h
      exact ih _ _ h

lemma arrayTail_head (text : PyStr) (start : Nat) (c : Char) (t : PyStr)
    (h : arrayTail text start = c :: t) : c = '[' := by
  have := dropWhile_head_false (fun ch => ch != '[') (text.drop start) c t h
  simpa using this

lemma arrayTail_mem (text : PyStr) (start : Nat) (c : Char) (t : PyStr)
    (h : arrayTail text start = c :: t) : '[' ∈ List.drop start text := by
  have hc := arrayTail_head text start c t h
  rw [← hc]
  refine (List.dropWhile_suffix (fun ch => ch != '[')).sublist.subset ?_
  rw [show List.dropWhile (fun ch => ch != '[') (List.drop start text) = c :: t
    from h]
  exact List.mem_cons_self c t

lemma arrayTail_empty_iff (text : PyStr) (start : Nat) :
    (arrayTail text start).isEmpty = true ↔ '[' ∉ List.drop start text := by
  rw [arrayTail, List.isEmpty_iff, List.dropWhile_eq_nil_iff]
  constructor
  · intro hall hm
    have := hall '[' hm
    simp at this
  · intro hnm x hx
    have hxne : x ≠ '[' := fun hc => hnm (hc ▸ hx)
    simpa using hxne

/-- C3: the boundary scanner `_extract_array` is exact. With `cs` the suffix
    of the input from the first `[` at or after `start_idx`: it fails with
    the opening-bracket error iff no `[` occurs at or after `start_idx`;
    it returns `s` iff `s` is the shortest non-empty prefix of `cs` whose
    string-aware bracket depth (brackets inside string literals not counted,
    escaped quotes not toggling string state, per `sStep`/`depthDelta`)
    returns to zero — i.e. exactly the substring from the opening `[` to its
    matching `]`; and it fails with the closing-bracket error iff an opening
    bracket exists but no prefix of `cs` balances it before the input ends. -/
theorem C3_extract_array_boundary (text : PyStr) (start : Nat) :
    (effulgent_extract_array text start = .error .noOpen ↔
      '[' ∉ List.drop start text) ∧
    (∀ s, effulgent_extract_array text start = .ok s ↔
      ∃ n, 0 < n ∧ n ≤ (arrayTail text start).length ∧
        s = List.take n (arrayTail text start) ∧
        specDepth scanInit 0 (List.take n (arrayTail text start)) = 0 ∧
        ∀ m, 0 < m → m < n →
          specDepth scanInit 0 (List.take m (arrayTail text start)) ≠ 0) ∧
    (effulgent_extract_array text start = .error .noClose ↔
      '[' ∈ List.drop start text ∧
        ∀ n, 0 < n → n ≤ (arrayTail text start).length →
          specDepth scanInit 0 (List.take n (arrayTail text start)) ≠ 0) := by
  by_cases hemp : (arrayTail text start).isEmpty
  · have hnil : arrayTail text start = [] := List.isEmpty_iff.mp hemp
    have hext : effulgent_extract_array text start = .error .noOpen := by
      rw [effulgent_extract_array, if_pos hemp]
    have hno : '[' ∉ List.drop start text :=
      (arrayTail_empty_iff text start).mp hemp
    refine ⟨?_, ?_, ?_⟩
    · rw [hext]
      exact iff_of_true rfl hno
    · intro s
      rw [hext]
      constructor
      · intro h
        exact absurd h (by simp)
      · rintro ⟨n, hn0, hnle, -, -, -⟩
        rw [hnil] at hnle
        simp at hnle
        omega
    · rw [hext]
      constructor
      · intro h
        exact absurd h (by simp)
      · rintro ⟨hm, -⟩
        exact absurd hm hno
  · have hne : arrayTail text start ≠ [] := by
      intro hc
      exact hemp (by rw [hc] ; rfl)
    obtain ⟨c, t, hct⟩ : ∃ c t, arrayTail text start = c :: t := by
      cases hx : arrayTail text start with
      | nil => exact absurd hx hne
      | cons c t => exact ⟨c, t, rfl⟩
    have hc : c = '[' := arrayTail_head text start c t hct
    have hmem : '[' ∈ List.drop start text := arrayTail_mem text start c t hct
    have hgood : goodStart scanInit 0 (arrayTail text start) := by
      refine Or.inr ⟨rfl, rfl, ?_⟩
      rw [hct, hc]
      rfl
    have hext : effulgent_extract_array text start =
        scanArray scanInit 0 (arrayTail text start) := by
      rw [effulgent_extract_array, if_neg hemp]
    refine ⟨?_, ?_, ?_⟩
    · rw [hext]
      constructor
      · intro h
        exact absurd h (scanArray_ne_noOpen _ _ _)
      · intro h
        exact absurd hmem h
    · intro s
      rw [hext]
      exact scanArray_ok_iff (arrayTail text start) scanInit 0 hgood s
    · rw [hext]
      rw [scanArray_err_iff (arrayTail text start) scanInit 0 hgood]
      constructor
      · intro h
        exact ⟨hmem, h⟩
      · rintro ⟨-, h⟩
        exact h

/-- Concrete check of the spec's escaped-quote example: the extractor returns
    the full balanced substring through the escaped quote, the bracket inside
    the string literal, and the nested array. -/
lemma extract_array_escaped_example :
    effulgent_extract_array (pstr ("var x = [[1], \"a\\\"b]\", 2] tail")) 0 =
      .ok (pstr ("[[1], \"a\\\"b]\", 2]")) := by rfl
